import Mathlib

/-!
Verification of the block-sparse matrix engine
(`internal/ceres/block_sparse_matrix.cc`).

The scalar type of the engine is embedded as `ℚ` (exact arithmetic standing
for the C++ `double`).  The block-structure descriptor types come from
`ceres/block_structure.h`, which is not among the sources; they are modelled
from the spec (section 3) and from how the `.cc` file reads their fields.
-/

set_option maxHeartbeats 1000000

namespace CeresBSM

/-- Modelled from the spec: `Block` (from the missing header
`ceres/block_structure.h`) — a contiguous range of scalar rows or columns,
with a `size` (count) and a `position` (starting global index). -/
structure Block where
  size : Nat
  position : Nat
deriving DecidableEq

/-- Modelled from the spec: `Cell` (from the missing header
`ceres/block_structure.h`) — one nonzero rectangular block within a
row-block: `block_id` indexes the column-block list and `position` is the
starting offset of the block entries in the flat value buffer. -/
structure Cell where
  block_id : Nat
  position : Nat
deriving DecidableEq

/-- Modelled from the spec: `CompressedRow` (from the missing header
`ceres/block_structure.h`) — one row-block: its `Block` plus its ordered
sequence of cells.  The `.cc` file reads it through the `cells` pointer and
`num_cells`; here the pair is a single list. -/
structure CompressedRow where
  block : Block
  cells : List Cell
deriving DecidableEq

/-- Modelled from the spec: `CompressedRowBlockStructure` (from the missing
header `ceres/block_structure.h`) — the block-structure descriptor: column
block sizes, the parallel column block positions, and the row entries. -/
structure CompressedRowBlockStructure where
  col_sizes : List Nat
  col_positions : List Nat
  rows : List CompressedRow
deriving DecidableEq

/-- The size of column block `i` (`col_sizes[i]` in the source; reads out of
range resolve to `0`). -/
def colSize (bs : CompressedRowBlockStructure) (i : Nat) : Nat :=
  bs.col_sizes.getD i 0

/-- The position of column block `i` (`col_positions[i]` in the source; reads
out of range resolve to `0`). -/
def colPosition (bs : CompressedRowBlockStructure) (i : Nat) : Nat :=
  bs.col_positions.getD i 0

/-- The block-sparse matrix: the derived counts, the flat value buffer and
the owned descriptor (fields of class `BlockSparseMatrix`). -/
structure BlockSparseMatrix where
  num_rows : Nat
  num_cols : Nat
  num_nonzeros : Nat
  max_num_nonzeros : Nat
  values : List ℚ
  block_structure : CompressedRowBlockStructure
deriving DecidableEq

/-- The constructor loop over `col_sizes` accumulating `num_cols_`. -/
def countColsFold (bs : CompressedRowBlockStructure) : Nat :=
  bs.col_sizes.foldl (fun acc s => acc + s) 0

/-- The constructor loop over the rows, accumulating `num_rows_` (first
component) and `num_nonzeros_` (second component,
`col_block_size * row_block_size` added per cell). -/
def countRowsNnzFold (bs : CompressedRowBlockStructure) : Nat × Nat :=
  bs.rows.foldl
    (fun acc row =>
      (acc.1 + row.block.size,
       row.cells.foldl
         (fun nnz cell => nnz + colSize bs cell.block_id * row.block.size)
         acc.2))
    ((0 : Nat), (0 : Nat))

/-- Embedding of the constructor `BlockSparseMatrix::BlockSparseMatrix`:
`num_cols` is accumulated over `col_sizes`; one pass over the rows
accumulates `num_rows` and `num_nonzeros`; the value buffer is allocated
with `num_nonzeros` scalars (the C++ leaves it uninitialized; the embedding
fills it with `0`, no operation below reads it before writing it). -/
def BlockSparseMatrix.ofBlockStructure (bs : CompressedRowBlockStructure) :
    BlockSparseMatrix :=
  { num_rows := (countRowsNnzFold bs).1
    num_cols := countColsFold bs
    num_nonzeros := (countRowsNnzFold bs).2
    max_num_nonzeros := (countRowsNnzFold bs).2
    values := List.replicate (countRowsNnzFold bs).2 0
    block_structure := bs }

theorem foldl_add_map {α M : Type _} [AddCommMonoid M] (f : α → M)
    (l : List α) (s : M) :
    l.foldl (fun acc x => acc + f x) s = s + (l.map f).sum := by
  induction l generalizing s with
  | nil => simp
  | cons a t ih => simp [ih, add_assoc]

theorem constructor_counts_fold (bs : CompressedRowBlockStructure)
    (rows : List CompressedRow) (a b : Nat) :
    rows.foldl
      (fun acc row =>
        (acc.1 + row.block.size,
         row.cells.foldl
           (fun nnz cell => nnz + colSize bs cell.block_id * row.block.size)
           acc.2))
      (a, b)
    = (a + (rows.map (fun row => row.block.size)).sum,
       b + (rows.map (fun row =>
         (row.cells.map
           (fun cell => colSize bs cell.block_id * row.block.size)).sum)).sum)
    := by
  induction rows generalizing a b with
  | nil => simp
  | cons r t ih =>
    simp only [List.foldl_cons]
    rw [ih]
    simp [foldl_add_map, add_assoc]

/-- C1: construction computes `num_cols` as the sum of all column-block
sizes, `num_rows` as the sum of all row-block sizes, `num_nonzeros` as the
sum over every cell in every row of `row_block_size * column_block_size`,
and allocates a value buffer whose length equals exactly `num_nonzeros`. -/
theorem construction_counts (bs : CompressedRowBlockStructure) :
    (BlockSparseMatrix.ofBlockStructure bs).num_cols = bs.col_sizes.sum
    ∧ (BlockSparseMatrix.ofBlockStructure bs).num_rows
        = (bs.rows.map (fun row => row.block.size)).sum
    ∧ (BlockSparseMatrix.ofBlockStructure bs).num_nonzeros
        = (bs.rows.map (fun row =>
            (row.cells.map (fun cell =>
              row.block.size * colSize bs cell.block_id)).sum)).sum
    ∧ (BlockSparseMatrix.ofBlockStructure bs).values.length
        = (BlockSparseMatrix.ofBlockStructure bs).num_nonzeros := by
  have h : countRowsNnzFold bs
      = ((bs.rows.map (fun row => row.block.size)).sum,
         (bs.rows.map (fun row =>
           (row.cells.map (fun cell =>
             colSize bs cell.block_id * row.block.size)).sum)).sum) := by
    have := constructor_counts_fold bs bs.rows 0 0
    simpa [countRowsNnzFold] using this
  refine ⟨?_, ?_, ?_, ?_⟩
  · show countColsFold bs = bs.col_sizes.sum
    exact List.sum_eq_foldl.symm
  · show (countRowsNnzFold bs).1 = _
    rw [h]
  · show (countRowsNnzFold bs).2 = _
    rw [h]
    simp [Nat.mul_comm]
  · show (List.replicate (countRowsNnzFold bs).2 (0 : ℚ)).length = _
    simp [BlockSparseMatrix.ofBlockStructure]

/-- `SetZero` on the value buffer:
`std::fill(values, values + num_nonzeros, 0.0)` sets the first
`num_nonzeros` entries of the buffer to `0`. -/
def setZeroValues (n : Nat) (vals : List ℚ) : List ℚ :=
  vals.mapIdx (fun i v => if i < n then 0 else v)

/-- Embedding of `BlockSparseMatrix::SetZero`. -/
def BlockSparseMatrix.setZero (A : BlockSparseMatrix) : BlockSparseMatrix :=
  { A with values := setZeroValues A.num_nonzeros A.values }

/-- Modelled from the spec: the trusted dense kernel `MatrixVectorMultiply`
(from the missing header `ceres/small_blas.h`): reading the row-major
`rbs × cbs` block at offset `vpos` of the value buffer, it accumulates
`y[yoff + r] += sum_c block[r][c] * x[xoff + c]` for `r < rbs`.  Caller
buffers are embedded as total functions `Nat → ℚ` indexed globally. -/
def matrixVectorMultiplyAcc (vals : List ℚ) (vpos rbs cbs : Nat)
    (x : Nat → ℚ) (xoff : Nat) (y : Nat → ℚ) (yoff : Nat) : Nat → ℚ :=
  fun i =>
    if yoff ≤ i ∧ i < yoff + rbs then
      y i + ∑ c ∈ Finset.range cbs,
        vals.getD (vpos + (i - yoff) * cbs + c) 0 * x (xoff + c)
    else y i

/-- Modelled from the spec: the trusted dense kernel
`MatrixTransposeVectorMultiply` (from the missing header
`ceres/small_blas.h`): with the same row-major `rbs × cbs` block, it
accumulates `y[yoff + c] += sum_r block[r][c] * x[xoff + r]` for
`c < cbs`. -/
def matrixTransposeVectorMultiplyAcc (vals : List ℚ) (vpos rbs cbs : Nat)
    (x : Nat → ℚ) (xoff : Nat) (y : Nat → ℚ) (yoff : Nat) : Nat → ℚ :=
  fun j =>
    if yoff ≤ j ∧ j < yoff + cbs then
      y j + ∑ r ∈ Finset.range rbs,
        vals.getD (vpos + r * cbs + (j - yoff)) 0 * x (xoff + r)
    else y j

/-- Embedding of `BlockSparseMatrix::RightMultiply` (`y += A x`): for every
row and every cell, the kernel accumulates the block times the `x` slice at
the column block position into the `y` slice at the row block position. -/
def BlockSparseMatrix.rightMultiply (A : BlockSparseMatrix)
    (x y : Nat → ℚ) : Nat → ℚ :=
  A.block_structure.rows.foldl
    (fun y row =>
      row.cells.foldl
        (fun y cell =>
          matrixVectorMultiplyAcc A.values cell.position row.block.size
            (colSize A.block_structure cell.block_id) x
            (colPosition A.block_structure cell.block_id) y
            row.block.position)
        y)
    y

/-- Embedding of `BlockSparseMatrix::LeftMultiply` (`y += Aᵗ x`): for every
row and every cell, the transpose kernel accumulates the block transpose
times the `x` slice at the row block position into the `y` slice at the
column block position. -/
def BlockSparseMatrix.leftMultiply (A : BlockSparseMatrix)
    (x y : Nat → ℚ) : Nat → ℚ :=
  A.block_structure.rows.foldl
    (fun y row =>
      row.cells.foldl
        (fun y cell =>
          matrixTransposeVectorMultiplyAcc A.values cell.position
            row.block.size (colSize A.block_structure cell.block_id) x
            row.block.position y
            (colPosition A.block_structure cell.block_id))
        y)
    y

/-- The per-cell accumulation of `SquaredColumnNorm`
(`VectorRef(x + col_block_pos, col_block_size) += m.colwise().squaredNorm()`
with `m` the row-major block; Eigen is external and trusted):
`x[yoff + c] += sum_r block[r][c]^2` for `c < cbs`. -/
def squaredNormAcc (vals : List ℚ) (vpos rbs cbs : Nat)
    (y : Nat → ℚ) (yoff : Nat) : Nat → ℚ :=
  fun j =>
    if yoff ≤ j ∧ j < yoff + cbs then
      y j + ∑ r ∈ Finset.range rbs,
        vals.getD (vpos + r * cbs + (j - yoff)) 0 ^ 2
    else y j

/-- Embedding of `BlockSparseMatrix::SquaredColumnNorm`: zero the first
`num_cols` entries of `x` (`VectorRef(x, num_cols_).setZero()`), then for
every cell add the per-column sums of squares of its block. -/
def BlockSparseMatrix.squaredColumnNorm (A : BlockSparseMatrix)
    (x : Nat → ℚ) : Nat → ℚ :=
  A.block_structure.rows.foldl
    (fun x row =>
      row.cells.foldl
        (fun x cell =>
          squaredNormAcc A.values cell.position row.block.size
            (colSize A.block_structure cell.block_id) x
            (colPosition A.block_structure cell.block_id))
        x)
    (fun j => if j < A.num_cols then 0 else x j)

/-- The per-cell in-place update of `ScaleColumns`
(`m *= ConstVectorRef(scale + col_block_pos, col_block_size).asDiagonal()`):
entry `(r, c)` of the row-major block at offset `vpos` is multiplied by
`scale (cbp + c)`. -/
def scaleCellValues (vals : List ℚ) (vpos rbs cbs : Nat)
    (scale : Nat → ℚ) (cbp : Nat) : List ℚ :=
  (List.range rbs).foldl
    (fun vals r =>
      (List.range cbs).foldl
        (fun vals c =>
          vals.set (vpos + r * cbs + c)
            (vals.getD (vpos + r * cbs + c) 0 * scale (cbp + c)))
        vals)
    vals

/-- Embedding of `BlockSparseMatrix::ScaleColumns`. -/
def BlockSparseMatrix.scaleColumns (A : BlockSparseMatrix)
    (scale : Nat → ℚ) : BlockSparseMatrix :=
  { A with
    values :=
      A.block_structure.rows.foldl
        (fun vals row =>
          row.cells.foldl
            (fun vals cell =>
              scaleCellValues vals cell.position row.block.size
                (colSize A.block_structure cell.block_id) scale
                (colPosition A.block_structure cell.block_id))
            vals)
        A.values }

/-- The per-cell additive placement of `ToDenseMatrix`
(`m.block(rbp, cbp, rbs, cbs) += MatrixRef(values + jac_pos, rbs, cbs)`,
Eigen external and trusted, blocks row-major). -/
def addBlockDense (vals : List ℚ) (rbp rbs cbp cbs vpos : Nat)
    (m : Nat × Nat → ℚ) : Nat × Nat → ℚ :=
  fun p =>
    if rbp ≤ p.1 ∧ p.1 < rbp + rbs ∧ cbp ≤ p.2 ∧ p.2 < cbp + cbs then
      m p + vals.getD (vpos + (p.1 - rbp) * cbs + (p.2 - cbp)) 0
    else m p

/-- Embedding of `BlockSparseMatrix::ToDenseMatrix`: a zero-filled
`num_rows × num_cols` dense matrix (total function on index pairs) into
which every cell block is added at its (row position, column position)
rectangle. -/
def BlockSparseMatrix.toDenseFun (A : BlockSparseMatrix) : Nat × Nat → ℚ :=
  A.block_structure.rows.foldl
    (fun m row =>
      row.cells.foldl
        (fun m cell =>
          addBlockDense A.values row.block.position row.block.size
            (colPosition A.block_structure cell.block_id)
            (colSize A.block_structure cell.block_id) cell.position m)
        m)
    (fun _ => 0)

/-- Entry `(i, j)` of the dense export. -/
def BlockSparseMatrix.toDenseMatrix (A : BlockSparseMatrix)
    (i j : Nat) : ℚ :=
  A.toDenseFun (i, j)

/-- Modelled from the spec: `TripletSparseMatrix` (its header
`ceres/triplet_sparse_matrix.h` is not among the sources) — an explicit
coordinate-form sparse matrix: parallel `rows`/`cols`/`values` arrays plus
the counts.  After `Reserve(num_nonzeros)`, `Resize(num_rows, num_cols)` and
`SetZero`, the arrays hold `num_nonzeros` zeroed slots. -/
structure TripletSparseMatrix where
  num_rows : Nat
  num_cols : Nat
  num_nonzeros : Nat
  rows : List Nat
  cols : List Nat
  values : List ℚ
deriving DecidableEq

/-- The state of the output of `ToTripletSparseMatrix` after
`Reserve(num_nonzeros_)`, `Resize(num_rows_, num_cols_)` and `SetZero()`. -/
def tripletInit (A : BlockSparseMatrix) : TripletSparseMatrix :=
  { num_rows := A.num_rows
    num_cols := A.num_cols
    num_nonzeros := 0
    rows := List.replicate A.num_nonzeros 0
    cols := List.replicate A.num_nonzeros 0
    values := List.replicate A.num_nonzeros 0 }

/-- The `r`/`c` double loop of `ToTripletSparseMatrix` for one cell: at
index `jac_pos = vpos + r * cbs + c` the triple
`(rbp + r, cbp + c, values[jac_pos])` is written into the three arrays. -/
def writeCellTriplets (vals : List ℚ) (rbp rbs cbp cbs vpos : Nat)
    (t : TripletSparseMatrix) : TripletSparseMatrix :=
  (List.range rbs).foldl
    (fun t r =>
      (List.range cbs).foldl
        (fun t c =>
          { t with
            rows := t.rows.set (vpos + r * cbs + c) (rbp + r)
            cols := t.cols.set (vpos + r * cbs + c) (cbp + c)
            values := t.values.set (vpos + r * cbs + c)
              (vals.getD (vpos + r * cbs + c) 0) })
        t)
    t

/-- Embedding of `BlockSparseMatrix::ToTripletSparseMatrix`: initialize the
output, write every cell's triples, then `set_num_nonzeros(num_nonzeros_)`. -/
def BlockSparseMatrix.toTripletSparseMatrix (A : BlockSparseMatrix) :
    TripletSparseMatrix :=
  { A.block_structure.rows.foldl
      (fun t row =>
        row.cells.foldl
          (fun t cell =>
            writeCellTriplets A.values row.block.position row.block.size
              (colPosition A.block_structure cell.block_id)
              (colSize A.block_structure cell.block_id) cell.position t)
          t)
      (tripletInit A)
    with num_nonzeros := A.num_nonzeros }

/-- Modelled from the source's disabled code: the option record of
`CreateRandomMatrix` (declared in the missing header). Its contents are
irrelevant here because the operation unconditionally faults. -/
structure RandomMatrixOptions where
  num_row_blocks : Nat
  min_row_block_size : Nat
  max_row_block_size : Nat
  num_col_blocks : Nat
  min_col_block_size : Nat
  max_col_block_size : Nat
  block_density : ℚ
deriving DecidableEq

/-- Embedding of `BlockSparseMatrix::AppendRows`: the body is
`throw std::runtime_error("Unsupported")` before any mutation, so the call
yields the fault and no successor state. -/
def BlockSparseMatrix.appendRows (A m : BlockSparseMatrix) :
    Except String BlockSparseMatrix :=
  Except.error "Unsupported"

/-- Embedding of `BlockSparseMatrix::DeleteRowBlocks`: the body is
`throw std::runtime_error("Unsupported")` before any mutation. -/
def BlockSparseMatrix.deleteRowBlocks (A : BlockSparseMatrix)
    (delta_row_blocks : Nat) : Except String BlockSparseMatrix :=
  Except.error "Unsupported"

/-- Embedding of `BlockSparseMatrix::CreateRandomMatrix`: the body is
`throw std::runtime_error("Unsupported")` before any work. -/
def createRandomMatrix (options : RandomMatrixOptions) :
    Except String BlockSparseMatrix :=
  Except.error "Unsupported"

/-! ### Method-call views

A C++ method call is embedded as a pair (post-state of the receiver,
result).  The five `const` methods write no member state — their writes go
only to caller-provided output buffers — so their post-state is the
receiver itself. -/

/-- Method-call view of `RightMultiply`. -/
def BlockSparseMatrix.rightMultiplyCall (A : BlockSparseMatrix)
    (x y : Nat → ℚ) : BlockSparseMatrix × (Nat → ℚ) :=
  (A, A.rightMultiply x y)

/-- Method-call view of `LeftMultiply`. -/
def BlockSparseMatrix.leftMultiplyCall (A : BlockSparseMatrix)
    (x y : Nat → ℚ) : BlockSparseMatrix × (Nat → ℚ) :=
  (A, A.leftMultiply x y)

/-- Method-call view of `SquaredColumnNorm`. -/
def BlockSparseMatrix.squaredColumnNormCall (A : BlockSparseMatrix)
    (x : Nat → ℚ) : BlockSparseMatrix × (Nat → ℚ) :=
  (A, A.squaredColumnNorm x)

/-- Method-call view of `ToDenseMatrix`. -/
def BlockSparseMatrix.toDenseMatrixCall (A : BlockSparseMatrix) :
    BlockSparseMatrix × (Nat × Nat → ℚ) :=
  (A, A.toDenseFun)

/-- Method-call view of `ToTripletSparseMatrix`. -/
def BlockSparseMatrix.toTripletSparseMatrixCall (A : BlockSparseMatrix) :
    BlockSparseMatrix × TripletSparseMatrix :=
  (A, A.toTripletSparseMatrix)

/-! ### Pointwise-add decomposition of the accumulation loops -/

theorem foldl_pointwise_add {I α : Type _} (δ : α → I → ℚ) (l : List α)
    (m : I → ℚ) :
    l.foldl (fun m a => fun i => m i + δ a i) m
      = fun i => m i + (l.map (fun a => δ a i)).sum := by
  induction l generalizing m with
  | nil => simp
  | cons a t ih =>
    simp only [List.foldl_cons]
    rw [ih]
    funext i
    simp [add_assoc]

/-- The net contribution of one cell inside `RightMultiply`. -/
def rmCellDelta (vals : List ℚ) (vpos rbs cbs : Nat) (x : Nat → ℚ)
    (xoff yoff : Nat) : Nat → ℚ :=
  fun i =>
    if yoff ≤ i ∧ i < yoff + rbs then
      ∑ c ∈ Finset.range cbs,
        vals.getD (vpos + (i - yoff) * cbs + c) 0 * x (xoff + c)
    else 0

theorem matrixVectorMultiplyAcc_eq (vals : List ℚ) (vpos rbs cbs : Nat)
    (x : Nat → ℚ) (xoff : Nat) (y : Nat → ℚ) (yoff : Nat) :
    matrixVectorMultiplyAcc vals vpos rbs cbs x xoff y yoff
      = fun i => y i + rmCellDelta vals vpos rbs cbs x xoff yoff i := by
  funext i
  simp only [matrixVectorMultiplyAcc, rmCellDelta]
  split <;> simp

/-- The net contribution of one cell inside `LeftMultiply`. -/
def lmCellDelta (vals : List ℚ) (vpos rbs cbs : Nat) (x : Nat → ℚ)
    (xoff yoff : Nat) : Nat → ℚ :=
  fun j =>
    if yoff ≤ j ∧ j < yoff + cbs then
      ∑ r ∈ Finset.range rbs,
        vals.getD (vpos + r * cbs + (j - yoff)) 0 * x (xoff + r)
    else 0

theorem matrixTransposeVectorMultiplyAcc_eq (vals : List ℚ)
    (vpos rbs cbs : Nat) (x : Nat → ℚ) (xoff : Nat) (y : Nat → ℚ)
    (yoff : Nat) :
    matrixTransposeVectorMultiplyAcc vals vpos rbs cbs x xoff y yoff
      = fun j => y j + lmCellDelta vals vpos rbs cbs x xoff yoff j := by
  funext j
  simp only [matrixTransposeVectorMultiplyAcc, lmCellDelta]
  split <;> simp

/-- The net contribution of one cell inside `SquaredColumnNorm`. -/
def sqCellDelta (vals : List ℚ) (vpos rbs cbs : Nat) (yoff : Nat) :
    Nat → ℚ :=
  fun j =>
    if yoff ≤ j ∧ j < yoff + cbs then
      ∑ r ∈ Finset.range rbs,
        vals.getD (vpos + r * cbs + (j - yoff)) 0 ^ 2
    else 0

theorem squaredNormAcc_eq (vals : List ℚ) (vpos rbs cbs : Nat)
    (y : Nat → ℚ) (yoff : Nat) :
    squaredNormAcc vals vpos rbs cbs y yoff
      = fun j => y j + sqCellDelta vals vpos rbs cbs yoff j := by
  funext j
  simp only [squaredNormAcc, sqCellDelta]
  split <;> simp

/-- The net contribution of one cell inside `ToDenseMatrix`. -/
def ddCellDelta (vals : List ℚ) (rbp rbs cbp cbs vpos : Nat) :
    Nat × Nat → ℚ :=
  fun p =>
    if rbp ≤ p.1 ∧ p.1 < rbp + rbs ∧ cbp ≤ p.2 ∧ p.2 < cbp + cbs then
      vals.getD (vpos + (p.1 - rbp) * cbs + (p.2 - cbp)) 0
    else 0

theorem addBlockDense_eq (vals : List ℚ) (rbp rbs cbp cbs vpos : Nat)
    (m : Nat × Nat → ℚ) :
    addBlockDense vals rbp rbs cbp cbs vpos m
      = fun p => m p + ddCellDelta vals rbp rbs cbp cbs vpos p := by
  funext p
  simp only [addBlockDense, ddCellDelta]
  split <;> simp

theorem rightMultiply_decomp (A : BlockSparseMatrix) (x y : Nat → ℚ) :
    A.rightMultiply x y
      = fun i => y i + (A.block_structure.rows.map (fun row =>
          (row.cells.map (fun cell =>
            rmCellDelta A.values cell.position row.block.size
              (colSize A.block_structure cell.block_id) x
              (colPosition A.block_structure cell.block_id)
              row.block.position i)).sum)).sum := by
  unfold BlockSparseMatrix.rightMultiply
  have hrow : ∀ (row : CompressedRow) (y : Nat → ℚ),
      row.cells.foldl
        (fun y cell =>
          matrixVectorMultiplyAcc A.values cell.position row.block.size
            (colSize A.block_structure cell.block_id) x
            (colPosition A.block_structure cell.block_id) y
            row.block.position)
        y
      = fun i => y i + (row.cells.map (fun cell =>
          rmCellDelta A.values cell.position row.block.size
            (colSize A.block_structure cell.block_id) x
            (colPosition A.block_structure cell.block_id)
            row.block.position i)).sum := by
    intro row y
    have hfg := funext (fun (y : Nat → ℚ) => funext (fun (cell : Cell) =>
      matrixVectorMultiplyAcc_eq A.values cell.position row.block.size
        (colSize A.block_structure cell.block_id) x
        (colPosition A.block_structure cell.block_id) y row.block.position))
    rw [hfg]
    exact foldl_pointwise_add _ row.cells y
  have houter := funext (fun (y : Nat → ℚ) =>
    funext (fun (row : CompressedRow) => hrow row y))
  rw [houter]
  exact foldl_pointwise_add _ A.block_structure.rows y

theorem leftMultiply_decomp (A : BlockSparseMatrix) (x y : Nat → ℚ) :
    A.leftMultiply x y
      = fun j => y j + (A.block_structure.rows.map (fun row =>
          (row.cells.map (fun cell =>
            lmCellDelta A.values cell.position row.block.size
              (colSize A.block_structure cell.block_id) x
              row.block.position
              (colPosition A.block_structure cell.block_id) j)).sum)).sum := by
  unfold BlockSparseMatrix.leftMultiply
  have hrow : ∀ (row : CompressedRow) (y : Nat → ℚ),
      row.cells.foldl
        (fun y cell =>
          matrixTransposeVectorMultiplyAcc A.values cell.position
            row.block.size (colSize A.block_structure cell.block_id) x
            row.block.position y
            (colPosition A.block_structure cell.block_id))
        y
      = fun j => y j + (row.cells.map (fun cell =>
          lmCellDelta A.values cell.position row.block.size
            (colSize A.block_structure cell.block_id) x
            row.block.position
            (colPosition A.block_structure cell.block_id) j)).sum := by
    intro row y
    have hfg := funext (fun (y : Nat → ℚ) => funext (fun (cell : Cell) =>
      matrixTransposeVectorMultiplyAcc_eq A.values cell.position
        row.block.size (colSize A.block_structure cell.block_id) x
        row.block.position y (colPosition A.block_structure cell.block_id)))
    rw [hfg]
    exact foldl_pointwise_add _ row.cells y
  have houter := funext (fun (y : Nat → ℚ) =>
    funext (fun (row : CompressedRow) => hrow row y))
  rw [houter]
  exact foldl_pointwise_add _ A.block_structure.rows y

theorem squaredColumnNorm_decomp (A : BlockSparseMatrix) (x : Nat → ℚ) :
    A.squaredColumnNorm x
      = fun j => (if j < A.num_cols then 0 else x j)
          + (A.block_structure.rows.map (fun row =>
              (row.cells.map (fun cell =>
                sqCellDelta A.values cell.position row.block.size
                  (colSize A.block_structure cell.block_id)
                  (colPosition A.block_structure cell.block_id) j)).sum)).sum
    := by
  unfold BlockSparseMatrix.squaredColumnNorm
  have hrow : ∀ (row : CompressedRow) (y : Nat → ℚ),
      row.cells.foldl
        (fun y cell =>
          squaredNormAcc A.values cell.position row.block.size
            (colSize A.block_structure cell.block_id) y
            (colPosition A.block_structure cell.block_id))
        y
      = fun j => y j + (row.cells.map (fun cell =>
          sqCellDelta A.values cell.position row.block.size
            (colSize A.block_structure cell.block_id)
            (colPosition A.block_structure cell.block_id) j)).sum := by
    intro row y
    have hfg := funext (fun (y : Nat → ℚ) => funext (fun (cell : Cell) =>
      squaredNormAcc_eq A.values cell.position row.block.size
        (colSize A.block_structure cell.block_id) y
        (colPosition A.block_structure cell.block_id)))
    rw [hfg]
    exact foldl_pointwise_add _ row.cells y
  have houter := funext (fun (y : Nat → ℚ) =>
    funext (fun (row : CompressedRow) => hrow row y))
  rw [houter]
  exact foldl_pointwise_add _ A.block_structure.rows _

theorem toDenseFun_decomp (A : BlockSparseMatrix) :
    A.toDenseFun
      = fun p => (A.block_structure.rows.map (fun row =>
          (row.cells.map (fun cell =>
            ddCellDelta A.values row.block.position row.block.size
              (colPosition A.block_structure cell.block_id)
              (colSize A.block_structure cell.block_id)
              cell.position p)).sum)).sum := by
  unfold BlockSparseMatrix.toDenseFun
  have hrow : ∀ (row : CompressedRow) (m : Nat × Nat → ℚ),
      row.cells.foldl
        (fun m cell =>
          addBlockDense A.values row.block.position row.block.size
            (colPosition A.block_structure cell.block_id)
            (colSize A.block_structure cell.block_id) cell.position m)
        m
      = fun p => m p + (row.cells.map (fun cell =>
          ddCellDelta A.values row.block.position row.block.size
            (colPosition A.block_structure cell.block_id)
            (colSize A.block_structure cell.block_id)
            cell.position p)).sum := by
    intro row m
    have hfg := funext (fun (m : Nat × Nat → ℚ) => funext (fun (cell : Cell) =>
      addBlockDense_eq A.values row.block.position row.block.size
        (colPosition A.block_structure cell.block_id)
        (colSize A.block_structure cell.block_id) cell.position m))
    rw [hfg]
    exact foldl_pointwise_add _ row.cells m
  have houter := funext (fun (m : Nat × Nat → ℚ) =>
    funext (fun (row : CompressedRow) => hrow row m))
  rw [houter]
  rw [foldl_pointwise_add]
  funext p
  simp

/-! ### Claims about faults and frames -/

/-- C8: `AppendRows`, `DeleteRowBlocks` and `CreateRandomMatrix` throw the
unsupported-operation fault immediately and never produce a successor
state: in the state-passing embedding each returns `Except.error
"Unsupported"`, so the receiver (value buffer, descriptor and derived
counts) survives the call unchanged. -/
theorem unsupported_operations_fault (A m : BlockSparseMatrix)
    (delta_row_blocks : Nat) (options : RandomMatrixOptions) :
    A.appendRows m = Except.error "Unsupported"
    ∧ A.deleteRowBlocks delta_row_blocks = Except.error "Unsupported"
    ∧ createRandomMatrix options = Except.error "Unsupported"
    ∧ (∀ B : BlockSparseMatrix, A.appendRows m ≠ Except.ok B)
    ∧ (∀ B : BlockSparseMatrix,
        A.deleteRowBlocks delta_row_blocks ≠ Except.ok B) :=
  ⟨rfl, rfl, rfl, fun _ h => by simp [BlockSparseMatrix.appendRows] at h,
    fun _ h => by simp [BlockSparseMatrix.deleteRowBlocks] at h⟩

/-- C10: the five read-only operations leave the matrix state entirely
unchanged (their method-call post-state is the receiver), and `SetZero` and
`ScaleColumns` modify only the value buffer, leaving the descriptor and the
derived counts `num_rows`, `num_cols`, `num_nonzeros` (and
`max_num_nonzeros`) unchanged. -/
theorem frame_invariant (A : BlockSparseMatrix) (x y scale : Nat → ℚ) :
    (A.rightMultiplyCall x y).1 = A
    ∧ (A.leftMultiplyCall x y).1 = A
    ∧ (A.squaredColumnNormCall x).1 = A
    ∧ A.toDenseMatrixCall.1 = A
    ∧ A.toTripletSparseMatrixCall.1 = A
    ∧ A.setZero.block_structure = A.block_structure
    ∧ A.setZero.num_rows = A.num_rows
    ∧ A.setZero.num_cols = A.num_cols
    ∧ A.setZero.num_nonzeros = A.num_nonzeros
    ∧ (A.scaleColumns scale).block_structure = A.block_structure
    ∧ (A.scaleColumns scale).num_rows = A.num_rows
    ∧ (A.scaleColumns scale).num_cols = A.num_cols
    ∧ (A.scaleColumns scale).num_nonzeros = A.num_nonzeros :=
  ⟨rfl, rfl, rfl, rfl, rfl, rfl, rfl, rfl, rfl, rfl, rfl, rfl, rfl⟩

/-! ### SetZero and RightMultiply -/

theorem setZeroValues_eq_replicate (vals : List ℚ) :
    setZeroValues vals.length vals = List.replicate vals.length (0 : ℚ) := by
  unfold setZeroValues
  apply List.ext_getElem
  · simp
  · intro i h1 h2
    have h3 : i < vals.length := by simpa using h1
    have h4 := List.get_mapIdx vals
      (fun i v => if i < vals.length then 0 else v) i h3
    simp only [List.get_eq_getElem] at h4
    simp [h4, h3]

theorem setZero_values (A : BlockSparseMatrix)
    (h : A.values.length = A.num_nonzeros) :
    A.setZero.values = List.replicate A.num_nonzeros (0 : ℚ) := by
  show setZeroValues A.num_nonzeros A.values = _
  rw [← h]
  exact setZeroValues_eq_replicate A.values

/-- C6: calling `SetZero` and then `RightMultiply` with any `x` leaves the
output vector `y` exactly equal to its pre-call value (`RightMultiply` only
accumulates, and the zeroed buffer contributes nothing).  The hypothesis is
the allocation invariant established by the constructor: the buffer length
equals `num_nonzeros`. -/
theorem setZero_then_rightMultiply (A : BlockSparseMatrix) (x y : Nat → ℚ)
    (h : A.values.length = A.num_nonzeros) :
    A.setZero.rightMultiply x y = y := by
  rw [rightMultiply_decomp]
  rw [setZero_values A h]
  funext i
  simp [rmCellDelta, List.getElem?_replicate,
    apply_ite (fun o : Option ℚ => o.getD 0)]

/-- A one-cell concrete descriptor: one 1×1 column block, one 1×1 row
block, one cell. -/
def bs0 : CompressedRowBlockStructure :=
  { col_sizes := [1]
    col_positions := [0]
    rows := [{ block := { size := 1, position := 0 }
               cells := [{ block_id := 0, position := 0 }] }] }

/-- The one-cell matrix over `bs0` with value buffer `[5]` (written through
`mutable_values`). -/
def A0 : BlockSparseMatrix :=
  { BlockSparseMatrix.ofBlockStructure bs0 with values := [5] }

/-- Witness for C6: the concrete matrix `A0` satisfies the buffer-length
hypothesis, and zeroing then right-multiplying leaves `y` unchanged. -/
theorem setZero_then_rightMultiply_witness :
    A0.values.length = A0.num_nonzeros
    ∧ A0.setZero.rightMultiply (fun _ => 3) (fun (k : Nat) => (k : ℚ))
        = (fun (k : Nat) => (k : ℚ)) :=
  ⟨by decide, setZero_then_rightMultiply A0 _ _ (by decide)⟩

/-! ### The descriptor invariant (spec section 3) -/

/-- The exclusive prefix sums of a list of sizes, starting at `start`. -/
def exclusivePrefixSum (start : Nat) : List Nat → List Nat
  | [] => []
  | s :: rest => start :: exclusivePrefixSum (start + s) rest

theorem eps_getD_bound (l : List Nat) (start i : Nat) (h : i < l.length) :
    start ≤ (exclusivePrefixSum start l).getD i 0
    ∧ (exclusivePrefixSum start l).getD i 0 + l.getD i 0 ≤ start + l.sum := by
  induction l generalizing start i with
  | nil => simp at h
  | cons s rest ih =>
    cases i with
    | zero => simp [exclusivePrefixSum]
    | succ n =>
      have hn : n < rest.length := by simpa using h
      have h2 := ih (start + s) n hn
      simp only [exclusivePrefixSum, List.getD_cons_succ, List.sum_cons]
      omega

theorem rows_pos_bound (rows : List CompressedRow) (start : Nat)
    (h : rows.map (fun r => r.block.position)
      = exclusivePrefixSum start (rows.map (fun r => r.block.size))) :
    ∀ row ∈ rows, start ≤ row.block.position
      ∧ row.block.position + row.block.size
          ≤ start + (rows.map (fun r => r.block.size)).sum := by
  induction rows generalizing start with
  | nil => simp
  | cons r t ih =>
    simp only [List.map_cons, exclusivePrefixSum, List.cons.injEq] at h
    obtain ⟨h1, h2⟩ := h
    intro row hmem
    rcases List.mem_cons.mp hmem with hr | ht
    · subst hr
      simp only [List.map_cons, List.sum_cons]
      omega
    · have h3 := ih (start + r.block.size) h2 row ht
      simp only [List.map_cons, List.sum_cons]
      omega

/-- The cells of the descriptor enumerated in structure order (row order,
then cell order within the row), each paired with its row. -/
def cellPairs (bs : CompressedRowBlockStructure) :
    List (CompressedRow × Cell) :=
  bs.rows.flatMap (fun row => row.cells.map (fun cell => (row, cell)))

/-- The block area (`row_block_size * column_block_size`) of a structure
cell. -/
def cellArea (bs : CompressedRowBlockStructure)
    (a : CompressedRow × Cell) : Nat :=
  a.1.block.size * colSize bs a.2.block_id

/-- The descriptor invariant of spec section 3: `col_positions` is the
exclusive prefix sum of `col_sizes`; row block positions are the exclusive
prefix sums of the row block sizes in `rows` order; every cell's column
block id is in range; and the cell value offsets, visited in structure
order, partition the value buffer without gaps or overlaps (each offset is
the exclusive prefix sum of the preceding cells' block areas). -/
def CompressedRowBlockStructure.wf (bs : CompressedRowBlockStructure) :
    Prop :=
  bs.col_positions = exclusivePrefixSum 0 bs.col_sizes
  ∧ bs.rows.map (fun r => r.block.position)
      = exclusivePrefixSum 0 (bs.rows.map (fun r => r.block.size))
  ∧ (∀ row ∈ bs.rows, ∀ cell ∈ row.cells,
      cell.block_id < bs.col_sizes.length)
  ∧ (cellPairs bs).map (fun a => a.2.position)
      = exclusivePrefixSum 0 ((cellPairs bs).map (cellArea bs))

/-- The matrix-level invariant: a well-formed descriptor together with the
constructor-derived counts and the allocated buffer length. -/
def BlockSparseMatrix.wf (A : BlockSparseMatrix) : Prop :=
  A.block_structure.wf
  ∧ A.num_cols = A.block_structure.col_sizes.sum
  ∧ A.num_rows = (A.block_structure.rows.map (fun r => r.block.size)).sum
  ∧ A.num_nonzeros
      = ((cellPairs A.block_structure).map (cellArea A.block_structure)).sum
  ∧ A.values.length = A.num_nonzeros

/-! ### Sum-shuffling helpers -/

theorem list_sum_mul_right {α : Type _} (l : List α) (f : α → ℚ) (c : ℚ) :
    (l.map f).sum * c = (l.map (fun a => f a * c)).sum := by
  induction l with
  | nil => simp
  | cons a t ih => simp [add_mul, ih]

theorem list_mul_sum_left {α : Type _} (l : List α) (f : α → ℚ) (c : ℚ) :
    c * (l.map f).sum = (l.map (fun a => c * f a)).sum := by
  induction l with
  | nil => simp
  | cons a t ih => simp [mul_add, ih]

theorem sum_range_list_sum {α : Type _} (n : Nat) (l : List α)
    (g : α → Nat → ℚ) :
    ∑ i ∈ Finset.range n, (l.map (fun a => g a i)).sum
      = (l.map (fun a => ∑ i ∈ Finset.range n, g a i)).sum := by
  induction l with
  | nil => simp
  | cons a t ih => simp [Finset.sum_add_distrib, ih]

theorem sum_range_window (n a s : Nat) (h : a + s ≤ n) (g : Nat → ℚ) :
    ∑ i ∈ Finset.range n, (if a ≤ i ∧ i < a + s then g i else 0)
      = ∑ r ∈ Finset.range s, g (a + r) := by
  have hsub : Finset.Ico a (a + s) ⊆ Finset.range n := by
    intro k hk
    simp only [Finset.mem_Ico] at hk
    simp only [Finset.mem_range]
    omega
  have hzero : ∀ k ∈ Finset.range n, k ∉ Finset.Ico a (a + s) →
      (if a ≤ k ∧ k < a + s then g k else 0) = 0 := by
    intro k hk1 hk2
    simp only [Finset.mem_Ico] at hk2
    have hnk : ¬(a ≤ k ∧ k < a + s) := by omega
    simp [hnk]
  rw [← Finset.sum_subset hsub hzero]
  have h2 : ∑ i ∈ Finset.Ico a (a + s),
        (if a ≤ i ∧ i < a + s then g i else 0)
      = ∑ i ∈ Finset.Ico a (a + s), g i := by
    apply Finset.sum_congr rfl
    intro k hk
    simp only [Finset.mem_Ico] at hk
    simp [hk.1, hk.2]
  rw [h2, Finset.sum_Ico_eq_sum_range]
  have h3 : a + s - a = s := by omega
  rw [h3]

/-- The dot product of two vectors over the index range `[0, n)`. -/
def dotRange (n : Nat) (f g : Nat → ℚ) : ℚ :=
  ∑ i ∈ Finset.range n, f i * g i

/-- The adjoint identity for the contribution of one cell. -/
theorem cell_adjoint (vals : List ℚ) (vpos rbs cbs : Nat) (x y : Nat → ℚ)
    (cbp rbp nR nC : Nat) (hb1 : rbp + rbs ≤ nR) (hb2 : cbp + cbs ≤ nC) :
    ∑ i ∈ Finset.range nR, rmCellDelta vals vpos rbs cbs x cbp rbp i * y i
      = ∑ j ∈ Finset.range nC,
          x j * lmCellDelta vals vpos rbs cbs y rbp cbp j := by
  unfold rmCellDelta lmCellDelta
  simp only [ite_mul, mul_ite, zero_mul, mul_zero]
  rw [sum_range_window nR rbp rbs hb1, sum_range_window nC cbp cbs hb2]
  simp only [Nat.add_sub_cancel_left]
  simp only [Finset.sum_mul, Finset.mul_sum]
  rw [Finset.sum_comm]
  apply Finset.sum_congr rfl
  intro c _
  apply Finset.sum_congr rfl
  intro r _
  ring

/-- The `RightMultiply` contribution of the cell `cell` of row `row` of `A`
at output index `i`. -/
def rmD (A : BlockSparseMatrix) (x : Nat → ℚ) (row : CompressedRow)
    (cell : Cell) (i : Nat) : ℚ :=
  rmCellDelta A.values cell.position row.block.size
    (colSize A.block_structure cell.block_id) x
    (colPosition A.block_structure cell.block_id) row.block.position i

/-- The `LeftMultiply` contribution of the cell `cell` of row `row` of `A`
at output index `j`. -/
def lmD (A : BlockSparseMatrix) (x : Nat → ℚ) (row : CompressedRow)
    (cell : Cell) (j : Nat) : ℚ :=
  lmCellDelta A.values cell.position row.block.size
    (colSize A.block_structure cell.block_id) x
    row.block.position (colPosition A.block_structure cell.block_id) j

theorem rightMultiply_decomp2 (A : BlockSparseMatrix) (x y : Nat → ℚ) :
    A.rightMultiply x y
      = fun i => y i + (A.block_structure.rows.map (fun row =>
          (row.cells.map (fun cell => rmD A x row cell i)).sum)).sum := by
  rw [rightMultiply_decomp]
  rfl

theorem leftMultiply_decomp2 (A : BlockSparseMatrix) (x y : Nat → ℚ) :
    A.leftMultiply x y
      = fun j => y j + (A.block_structure.rows.map (fun row =>
          (row.cells.map (fun cell => lmD A x row cell j)).sum)).sum := by
  rw [leftMultiply_decomp]
  rfl

theorem sum_range_nested (n : Nat) (R : List CompressedRow)
    (g : CompressedRow → Cell → Nat → ℚ) :
    ∑ i ∈ Finset.range n, (R.map (fun row =>
        (row.cells.map (fun cell => g row cell i)).sum)).sum
      = (R.map (fun row => (row.cells.map (fun cell =>
          ∑ i ∈ Finset.range n, g row cell i)).sum)).sum := by
  rw [sum_range_list_sum]
  refine congrArg List.sum ?_
  apply List.map_congr_left
  intro row _
  rw [sum_range_list_sum]

theorem mul_into_nested_right (R : List CompressedRow)
    (g : CompressedRow → Cell → ℚ) (c : ℚ) :
    (R.map (fun row => (row.cells.map (fun cell => g row cell)).sum)).sum * c
      = (R.map (fun row =>
          (row.cells.map (fun cell => g row cell * c)).sum)).sum := by
  rw [list_sum_mul_right]
  refine congrArg List.sum ?_
  apply List.map_congr_left
  intro row _
  rw [list_sum_mul_right]

theorem mul_into_nested_left (R : List CompressedRow)
    (g : CompressedRow → Cell → ℚ) (c : ℚ) :
    c * (R.map (fun row => (row.cells.map (fun cell => g row cell)).sum)).sum
      = (R.map (fun row =>
          (row.cells.map (fun cell => c * g row cell)).sum)).sum := by
  rw [list_mul_sum_left]
  refine congrArg List.sum ?_
  apply List.map_congr_left
  intro row _
  rw [list_mul_sum_left]

theorem cell_adjoint2 (A : BlockSparseMatrix) (x y : Nat → ℚ)
    (row : CompressedRow) (cell : Cell)
    (hb1 : row.block.position + row.block.size ≤ A.num_rows)
    (hb2 : colPosition A.block_structure cell.block_id
      + colSize A.block_structure cell.block_id ≤ A.num_cols) :
    ∑ i ∈ Finset.range A.num_rows, rmD A x row cell i * y i
      = ∑ j ∈ Finset.range A.num_cols, x j * lmD A y row cell j :=
  cell_adjoint A.values cell.position row.block.size
    (colSize A.block_structure cell.block_id) x y
    (colPosition A.block_structure cell.block_id) row.block.position
    A.num_rows A.num_cols hb1 hb2

/-- C2: for every matrix satisfying the descriptor invariant and all
vectors `x`, `y`, the adjoint identity holds exactly:
`⟨A·x, y⟩ = ⟨x, Aᵗ·y⟩`, where `A·x` is the contribution of `RightMultiply`
(accumulated into a zero vector) and `Aᵗ·y` the contribution of
`LeftMultiply`. -/
theorem adjoint_identity (A : BlockSparseMatrix) (x y : Nat → ℚ)
    (hwf : A.wf) :
    dotRange A.num_rows (A.rightMultiply x (fun _ => 0)) y
      = dotRange A.num_cols x (A.leftMultiply y (fun _ => 0)) := by
  obtain ⟨⟨hcol, hrowpos, hids, hoff⟩, hnc, hnr, hnnz, hlen⟩ := hwf
  have eL : dotRange A.num_rows (A.rightMultiply x (fun _ => 0)) y
      = (A.block_structure.rows.map (fun row => (row.cells.map (fun cell =>
          ∑ i ∈ Finset.range A.num_rows, rmD A x row cell i * y i)).sum)).sum
      := by
    rw [rightMultiply_decomp2]
    unfold dotRange
    simp only [zero_add]
    refine Eq.trans ?_ (sum_range_nested A.num_rows A.block_structure.rows
      (fun row cell i => rmD A x row cell i * y i))
    refine Finset.sum_congr rfl ?_
    intro i _
    exact mul_into_nested_right A.block_structure.rows
      (fun row cell => rmD A x row cell i) (y i)
  have eR : dotRange A.num_cols x (A.leftMultiply y (fun _ => 0))
      = (A.block_structure.rows.map (fun row => (row.cells.map (fun cell =>
          ∑ j ∈ Finset.range A.num_cols, x j * lmD A y row cell j)).sum)).sum
      := by
    rw [leftMultiply_decomp2]
    unfold dotRange
    simp only [zero_add]
    refine Eq.trans ?_ (sum_range_nested A.num_cols A.block_structure.rows
      (fun row cell j => x j * lmD A y row cell j))
    refine Finset.sum_congr rfl ?_
    intro j _
    exact mul_into_nested_left A.block_structure.rows
      (fun row cell => lmD A y row cell j) (x j)
  have eM : (A.block_structure.rows.map (fun row => (row.cells.map (fun cell =>
      ∑ i ∈ Finset.range A.num_rows, rmD A x row cell i * y i)).sum)).sum
      = (A.block_structure.rows.map (fun row => (row.cells.map (fun cell =>
          ∑ j ∈ Finset.range A.num_cols, x j * lmD A y row cell j)).sum)).sum
      := by
    refine congrArg List.sum ?_
    apply List.map_congr_left
    intro row hrow
    refine congrArg List.sum ?_
    apply List.map_congr_left
    intro cell hcell
    have hb1 : row.block.position + row.block.size ≤ A.num_rows := by
      have h1 := rows_pos_bound A.block_structure.rows 0 hrowpos row hrow
      omega
    have hb2 : colPosition A.block_structure cell.block_id
        + colSize A.block_structure cell.block_id ≤ A.num_cols := by
      have h1 := hids row hrow cell hcell
      have h2 := eps_getD_bound A.block_structure.col_sizes 0 cell.block_id h1
      simp only [colPosition, colSize, hcol]
      omega
    exact cell_adjoint2 A x y row cell hb1 hb2
  exact eL.trans (eM.trans eR.symm)

instance (bs : CompressedRowBlockStructure) : Decidable bs.wf := by
  unfold CompressedRowBlockStructure.wf
  infer_instance

instance (A : BlockSparseMatrix) : Decidable A.wf := by
  unfold BlockSparseMatrix.wf
  infer_instance

/-- Witness for C2 at the concrete matrix `A0`: the invariant holds and
both dot products evaluate to the same rational. -/
theorem adjoint_identity_witness :
    A0.wf
    ∧ dotRange A0.num_rows
        (A0.rightMultiply (fun _ => 3) (fun _ => 0)) (fun _ => 2)
      = dotRange A0.num_cols (fun _ => 3)
          (A0.leftMultiply (fun _ => 2) (fun _ => 0)) :=
  ⟨by decide, adjoint_identity A0 _ _ (by decide)⟩

/-! ### CreateDiagonalMatrix -/

/-- Modelled from the spec: the row-construction loop of
`CreateDiagonalMatrix` (spec 4.9).  The C++ stores each row's single cell
in the descriptor's `all_cells` arena, whose semantics live in the missing
header `ceres/block_structure.h`; per the spec each row-block `i` carries
the block `(col_sizes[i], col_positions[i])` and exactly one cell with
`block_id = i` and a running value offset advancing by `size²`. -/
def diagStructRows : Nat → Nat → List Nat → List Nat → List CompressedRow
  | _, _, [], _ => []
  | _, _, _ :: _, [] => []
  | i, pos, s :: ss, p :: ps =>
      { block := { size := s, position := p }
        cells := [{ block_id := i, position := pos }] }
        :: diagStructRows (i + 1) (pos + s * s) ss ps

/-- The descriptor built by `CreateDiagonalMatrix`. -/
def diagBS (col_sizes col_positions : List Nat) :
    CompressedRowBlockStructure :=
  { col_sizes := col_sizes
    col_positions := col_positions
    rows := diagStructRows 0 0 col_sizes col_positions }

/-- The first `count` diagonal writes of one block of the fill loop:
the `j`-th write puts `d (dofs + j)` at index `vofs + j * stride`
(`stride` is `size + 1`). -/
def writeDiagRun (vals : List ℚ) (vofs stride : Nat) (d : Nat → ℚ)
    (dofs : Nat) : Nat → List ℚ
  | 0 => vals
  | n + 1 => (writeDiagRun vals vofs stride d dofs n).set
      (vofs + n * stride) (d (dofs + n))

/-- One block of the fill loop of `CreateDiagonalMatrix`:
`values[j * (size + 1)] = diagonal[j]` for `j < size`, relative to the
running pointers. -/
def writeBlockDiag (vals : List ℚ) (vofs size : Nat) (d : Nat → ℚ)
    (dofs : Nat) : List ℚ :=
  (List.range size).foldl
    (fun v j => v.set (vofs + j * (size + 1)) (d (dofs + j))) vals

/-- The fill loop of `CreateDiagonalMatrix` over the column blocks: the
`diagonal` pointer advances by `size`, the `values` pointer by `size²`. -/
def fillDiagValues (d : Nat → ℚ) : Nat → Nat → List ℚ → List Nat → List ℚ
  | _, _, vals, [] => vals
  | dofs, vofs, vals, s :: ss =>
      fillDiagValues d (dofs + s) (vofs + s * s)
        (writeBlockDiag vals vofs s d dofs) ss

/-- The matrix state of `CreateDiagonalMatrix` right after construction
and `SetZero`, before the fill loop. -/
def diagBase (col_sizes col_positions : List Nat) : BlockSparseMatrix :=
  (BlockSparseMatrix.ofBlockStructure (diagBS col_sizes col_positions)).setZero

/-- Embedding of `BlockSparseMatrix::CreateDiagonalMatrix`: build the
one-cell-per-row block structure, construct the matrix, `SetZero` it, then
fill the diagonal entries block by block. -/
def createDiagonalMatrix (diagonal : Nat → ℚ)
    (col_sizes col_positions : List Nat) : BlockSparseMatrix :=
  { diagBase col_sizes col_positions with
    values := fillDiagValues diagonal 0 0
      (diagBase col_sizes col_positions).values col_sizes }

theorem foldl_range_set_eq_run (vals : List ℚ) (vofs stride : Nat)
    (d : Nat → ℚ) (dofs : Nat) :
    ∀ n, (List.range n).foldl
        (fun v j => v.set (vofs + j * stride) (d (dofs + j))) vals
      = writeDiagRun vals vofs stride d dofs n := by
  intro n
  induction n with
  | zero => rfl
  | succ m ih =>
    rw [List.range_succ, List.foldl_append, ih]
    rfl

theorem writeBlockDiag_eq_run (vals : List ℚ) (vofs size : Nat)
    (d : Nat → ℚ) (dofs : Nat) :
    writeBlockDiag vals vofs size d dofs
      = writeDiagRun vals vofs (size + 1) d dofs size :=
  foldl_range_set_eq_run vals vofs (size + 1) d dofs size

theorem writeDiagRun_length (vals : List ℚ) (vofs stride : Nat)
    (d : Nat → ℚ) (dofs n : Nat) :
    (writeDiagRun vals vofs stride d dofs n).length = vals.length := by
  induction n with
  | zero => rfl
  | succ m ih => simp [writeDiagRun, ih]

theorem writeDiagRun_getD_other (vals : List ℚ) (vofs stride : Nat)
    (d : Nat → ℚ) (dofs : Nat) :
    ∀ (n idx : Nat), (∀ j, j < n → idx ≠ vofs + j * stride) →
    (writeDiagRun vals vofs stride d dofs n).getD idx 0
      = vals.getD idx 0 := by
  intro n
  induction n with
  | zero => intro idx h; rfl
  | succ m ih =>
    intro idx h
    show ((writeDiagRun vals vofs stride d dofs m).set
      (vofs + m * stride) (d (dofs + m))).getD idx 0 = _
    have hne : vofs + m * stride ≠ idx := fun he =>
      h m (Nat.lt_succ_self m) he.symm
    simp only [List.getD_eq_getElem?_getD, List.getElem?_set_ne hne]
    have := ih idx (fun j hj => h j (Nat.lt_succ_of_lt hj))
    simpa using this

theorem writeDiagRun_getD_hit (vals : List ℚ) (vofs stride : Nat)
    (d : Nat → ℚ) (dofs : Nat) (hs : 0 < stride) :
    ∀ (n j : Nat), j < n → vofs + j * stride < vals.length →
    (writeDiagRun vals vofs stride d dofs n).getD (vofs + j * stride) 0
      = d (dofs + j) := by
  intro n
  induction n with
  | zero => intro j hj; omega
  | succ m ih =>
    intro j hj hlen
    show ((writeDiagRun vals vofs stride d dofs m).set
      (vofs + m * stride) (d (dofs + m))).getD (vofs + j * stride) 0 = _
    rcases Nat.lt_or_ge j m with hjm | hjm
    · have hne : vofs + m * stride ≠ vofs + j * stride := by
        intro he
        have : m * stride = j * stride := by omega
        have : m = j := Nat.eq_of_mul_eq_mul_right hs this
        omega
      simp only [List.getD_eq_getElem?_getD, List.getElem?_set_ne hne]
      have := ih j hjm hlen
      simpa using this
    · have hje : j = m := by omega
      subst hje
      have hlt : vofs + j * stride
          < (writeDiagRun vals vofs stride d dofs j).length := by
        rw [writeDiagRun_length]
        exact hlen
      simp [List.getD_eq_getElem?_getD, List.getElem?_set_self hlt]

theorem mul_stride_lt_sq (j s : Nat) (hj : j < s) : j * (s + 1) < s * s := by
  have h1 : (j + 1) * (s + 1) ≤ s * (s + 1) :=
    Nat.mul_le_mul_right _ (Nat.succ_le_of_lt hj)
  have h2 : j * (s + 1) + (s + 1) = (j + 1) * (s + 1) := by ring
  have h3 : s * (s + 1) = s * s + s := by ring
  omega

theorem row_col_lt_sq (r c s : Nat) (hr : r < s) (hc : c < s) :
    r * s + c < s * s := by
  have h1 : (r + 1) * s ≤ s * s :=
    Nat.mul_le_mul_right _ (Nat.succ_le_of_lt hr)
  have h2 : (r + 1) * s = r * s + s := by ring
  omega

/-- Per-suffix view of the column partition: from column block `k` on, the
sizes are `ss` and the positions are their exclusive prefix sums starting
at `dpos`. -/
def diagColsOk (bs : CompressedRowBlockStructure) :
    Nat → Nat → List Nat → Prop
  | _, _, [] => True
  | k, dpos, s :: rest =>
      colSize bs k = s ∧ colPosition bs k = dpos
      ∧ diagColsOk bs (k + 1) (dpos + s) rest

/-- Per-suffix characterization of the filled value buffer: from value
offset `vofs` and diagonal offset `dpos` on, the square blocks of sizes
`ss` hold the diagonal pattern and zeros elsewhere. -/
def diagValsOk (d : Nat → ℚ) (vals : List ℚ) :
    Nat → Nat → List Nat → Prop
  | _, _, [] => True
  | dpos, vofs, s :: rest =>
      (∀ r c, r < s → c < s →
        vals.getD (vofs + r * s + c) 0 = if r = c then d (dpos + r) else 0)
      ∧ diagValsOk d vals (dpos + s) (vofs + s * s) rest

theorem diagColsOk_of (bs : CompressedRowBlockStructure) :
    ∀ (ss : List Nat) (k dpos : Nat),
    bs.col_sizes.drop k = ss →
    bs.col_positions.drop k = exclusivePrefixSum dpos ss →
    diagColsOk bs k dpos ss := by
  intro ss
  induction ss with
  | nil => intro k dpos h1 h2; trivial
  | cons s rest ih =>
    intro k dpos h1 h2
    have hs0 : bs.col_sizes[k]? = some s := by
      have h3 := congrArg (fun (t : List Nat) => t[0]?) h1
      simpa [List.getElem?_drop] using h3
    have hp0 : bs.col_positions[k]? = some dpos := by
      have h3 := congrArg (fun (t : List Nat) => t[0]?) h2
      simpa [List.getElem?_drop, exclusivePrefixSum] using h3
    refine ⟨?_, ?_, ?_⟩
    · simp [colSize, hs0]
    · simp [colPosition, hp0]
    · apply ih (k + 1) (dpos + s)
      · have h3 := congrArg (List.drop 1) h1
        simpa [List.drop_drop] using h3
      · have h3 := congrArg (List.drop 1) h2
        simpa [List.drop_drop, exclusivePrefixSum] using h3

theorem writeBlockDiag_length (vals : List ℚ) (vofs s : Nat) (d : Nat → ℚ)
    (dofs : Nat) :
    (writeBlockDiag vals vofs s d dofs).length = vals.length := by
  rw [writeBlockDiag_eq_run]
  exact writeDiagRun_length vals vofs (s + 1) d dofs s

theorem writeBlockDiag_getD_low (vals : List ℚ) (vofs s : Nat)
    (d : Nat → ℚ) (dofs idx : Nat) (h : idx < vofs) :
    (writeBlockDiag vals vofs s d dofs).getD idx 0 = vals.getD idx 0 := by
  rw [writeBlockDiag_eq_run]
  apply writeDiagRun_getD_other
  intro j hj
  omega

theorem fillDiagValues_getD_low (d : Nat → ℚ) :
    ∀ (ss : List Nat) (dofs vofs : Nat) (vals : List ℚ) (idx : Nat),
    idx < vofs →
    (fillDiagValues d dofs vofs vals ss).getD idx 0 = vals.getD idx 0 := by
  intro ss
  induction ss with
  | nil => intro dofs vofs vals idx h; rfl
  | cons s rest ih =>
    intro dofs vofs vals idx h
    show (fillDiagValues d (dofs + s) (vofs + s * s)
      (writeBlockDiag vals vofs s d dofs) rest).getD idx 0 = _
    rw [ih (dofs + s) (vofs + s * s) _ idx (by omega)]
    exact writeBlockDiag_getD_low vals vofs s d dofs idx h

theorem fillDiag_ok (d : Nat → ℚ) :
    ∀ (ss : List Nat) (dpos vofs : Nat) (vals : List ℚ),
    vofs + (ss.map (fun s => s * s)).sum ≤ vals.length →
    (∀ idx, vofs ≤ idx → idx < vofs + (ss.map (fun s => s * s)).sum →
      vals.getD idx 0 = 0) →
    diagValsOk d (fillDiagValues d dpos vofs vals ss) dpos vofs ss := by
  intro ss
  induction ss with
  | nil => intro dpos vofs vals h1 h2; trivial
  | cons s rest ih =>
    intro dpos vofs vals hlen hz
    simp only [List.map_cons, List.sum_cons] at hlen hz
    constructor
    · intro r c hr hc
      have hidx : vofs + r * s + c < vofs + s * s := by
        have := row_col_lt_sq r c s hr hc
        omega
      show (fillDiagValues d (dpos + s) (vofs + s * s)
        (writeBlockDiag vals vofs s d dpos) rest).getD (vofs + r * s + c) 0
        = _
      rw [fillDiagValues_getD_low d rest _ _ _ _ hidx]
      by_cases hrc : r = c
      · subst hrc
        have he : vofs + r * s + r = vofs + r * (s + 1) := by ring
        rw [he, writeBlockDiag_eq_run]
        rw [writeDiagRun_getD_hit vals vofs (s + 1) d dpos (by omega) s r hr
          (by have := mul_stride_lt_sq r s hr; omega)]
        simp
      · have hne : ∀ j, j < s → vofs + r * s + c ≠ vofs + j * (s + 1) := by
          intro j hj heq
          have hiden : j * (s + 1) = j * s + j := by ring
          have h2 : r * s + c = j * s + j := by omega
          have hcj : c = j := by
            have h3 : (r * s + c) % s = (j * s + j) % s := by rw [h2]
            have h4 : (c + r * s) % s = c % s := Nat.add_mul_mod_self_right c r s
            have h5 : (j + j * s) % s = j % s := Nat.add_mul_mod_self_right j j s
            rw [Nat.add_comm (r * s) c] at h3
            rw [Nat.add_comm (j * s) j] at h3
            rw [h4, h5, Nat.mod_eq_of_lt hc, Nat.mod_eq_of_lt hj] at h3
            exact h3
          subst hcj
          have h6 : r * s = c * s := by omega
          have hrj : r = c := Nat.eq_of_mul_eq_mul_right (by omega) h6
          exact hrc hrj
        rw [writeBlockDiag_eq_run]
        rw [writeDiagRun_getD_other vals vofs (s + 1) d dpos s _ hne]
        rw [hz (vofs + r * s + c) (by omega) (by omega)]
        simp [hrc]
    · apply ih (dpos + s) (vofs + s * s) (writeBlockDiag vals vofs s d dpos)
      · rw [writeBlockDiag_length]
        omega
      · intro idx h1 h2
        rw [writeBlockDiag_eq_run]
        rw [writeDiagRun_getD_other vals vofs (s + 1) d dpos s idx ?hj]
        case hj =>
          intro j hj heq
          have := mul_stride_lt_sq j s hj
          omega
        exact hz idx (by omega) (by omega)

theorem eps_length (start : Nat) (l : List Nat) :
    (exclusivePrefixSum start l).length = l.length := by
  induction l generalizing start with
  | nil => rfl
  | cons s rest ih => simp [exclusivePrefixSum, ih]

theorem getD_replicate_zero (n idx : Nat) :
    (List.replicate n (0 : ℚ)).getD idx 0 = 0 := by
  simp [List.getD_eq_getElem?_getD, List.getElem?_replicate,
    apply_ite (fun o : Option ℚ => o.getD 0)]

theorem ofBlockStructure_nnz (bs : CompressedRowBlockStructure) :
    (BlockSparseMatrix.ofBlockStructure bs).num_nonzeros
      = (bs.rows.map (fun row => (row.cells.map (fun cell =>
          colSize bs cell.block_id * row.block.size)).sum)).sum := by
  show (countRowsNnzFold bs).2 = _
  have h := constructor_counts_fold bs bs.rows 0 0
  have h2 := congrArg Prod.snd h
  simpa [countRowsNnzFold] using h2

theorem diag_rows_nnz (bs : CompressedRowBlockStructure) :
    ∀ (ss ps : List Nat) (k dpos vofs : Nat),
    diagColsOk bs k dpos ss → ps.length = ss.length →
    ((diagStructRows k vofs ss ps).map (fun row =>
      (row.cells.map (fun cell =>
        colSize bs cell.block_id * row.block.size)).sum)).sum
      = (ss.map (fun s => s * s)).sum := by
  intro ss
  induction ss with
  | nil => intro ps k dpos vofs h1 h2; simp [diagStructRows]
  | cons s rest ih =>
    intro ps k dpos vofs h1 h2
    obtain ⟨hcs, hcp, h1t⟩ := h1
    cases ps with
    | nil => simp at h2
    | cons p pt =>
      simp only [diagStructRows, List.map_cons, List.sum_cons, List.map_nil,
        List.sum_nil]
      rw [ih pt (k + 1) (dpos + s) (vofs + s * s) h1t (by simpa using h2)]
      rw [hcs]
      ring

/-- The dense sum of the block-diagonal structure built from the size
suffix `ss`: exactly the diagonal entries inside the covered index window,
zero outside. -/
theorem diag_dense_aux (d : Nat → ℚ) (bs : CompressedRowBlockStructure)
    (vals : List ℚ) (i j : Nat) :
    ∀ (ss : List Nat) (k dpos vofs : Nat),
    diagColsOk bs k dpos ss →
    diagValsOk d vals dpos vofs ss →
    ((diagStructRows k vofs ss (exclusivePrefixSum dpos ss)).map (fun row =>
      (row.cells.map (fun cell =>
        ddCellDelta vals row.block.position row.block.size
          (colPosition bs cell.block_id) (colSize bs cell.block_id)
          cell.position (i, j))).sum)).sum
    = if dpos ≤ i ∧ i < dpos + ss.sum ∧ i = j then d i else 0 := by
  intro ss
  induction ss with
  | nil =>
    intro k dpos vofs h1 h2
    have hno : ¬(dpos ≤ i ∧ i < dpos ∧ i = j) := by omega
    simp [diagStructRows, exclusivePrefixSum, hno]
  | cons s rest ih =>
    intro k dpos vofs h1 h2
    obtain ⟨hcs, hcp, h1t⟩ := h1
    obtain ⟨hhead, h2t⟩ := h2
    simp only [exclusivePrefixSum, diagStructRows, List.map_cons,
      List.sum_cons, List.map_nil, List.sum_nil]
    rw [ih (k + 1) (dpos + s) (vofs + s * s) h1t h2t]
    rw [hcs, hcp]
    simp only [ddCellDelta]
    by_cases hin : dpos ≤ i ∧ i < dpos + s ∧ dpos ≤ j ∧ j < dpos + s
    · rw [if_pos hin]
      rw [hhead (i - dpos) (j - dpos) (by omega) (by omega)]
      have hd : dpos + (i - dpos) = i := by omega
      rw [hd]
      by_cases hij : i = j
      · have c1 : i - dpos = j - dpos := by omega
        have c2 : ¬(dpos + s ≤ i ∧ i < dpos + s + rest.sum ∧ i = j) := by
          omega
        have c3 : dpos ≤ i ∧ i < dpos + (s + rest.sum) ∧ i = j := by omega
        rw [if_pos c1, if_neg c2, if_pos c3]
        ring
      · have c1 : ¬(i - dpos = j - dpos) := by omega
        have c2 : ¬(dpos + s ≤ i ∧ i < dpos + s + rest.sum ∧ i = j) := by
          omega
        have c3 : ¬(dpos ≤ i ∧ i < dpos + (s + rest.sum) ∧ i = j) := by
          omega
        rw [if_neg c1, if_neg c2, if_neg c3]
        ring
    · rw [if_neg hin]
      by_cases ht : dpos + s ≤ i ∧ i < dpos + s + rest.sum ∧ i = j
      · rw [if_pos ht]
        have c3 : dpos ≤ i ∧ i < dpos + (s + rest.sum) ∧ i = j := by omega
        rw [if_pos c3]
        ring
      · rw [if_neg ht]
        have c3 : ¬(dpos ≤ i ∧ i < dpos + (s + rest.sum) ∧ i = j) := by
          omega
        rw [if_neg c3]
        ring

/-- C3: for every diagonal vector and every consistent column-block
partition (positions the exclusive prefix sum of sizes),
`CreateDiagonalMatrix` returns a square matrix whose dense form is exactly
the diagonal matrix of the input vector: entry `(i, j)` is `diagonal i`
when `i = j` and `0` otherwise. -/
theorem createDiagonalMatrix_dense (d : Nat → ℚ) (cs ps : List Nat)
    (hps : ps = exclusivePrefixSum 0 cs) (i j : Nat)
    (hi : i < cs.sum) (hj : j < cs.sum) :
    (createDiagonalMatrix d cs ps).toDenseMatrix i j
      = if i = j then d i else 0 := by
  subst hps
  have hcols : diagColsOk (diagBS cs (exclusivePrefixSum 0 cs)) 0 0 cs :=
    diagColsOk_of _ cs 0 0 (by simp [diagBS]) (by simp [diagBS])
  have hnnz : (BlockSparseMatrix.ofBlockStructure
        (diagBS cs (exclusivePrefixSum 0 cs))).num_nonzeros
      = (cs.map (fun s => s * s)).sum := by
    rw [ofBlockStructure_nnz]
    exact diag_rows_nnz _ cs _ 0 0 0 hcols (eps_length 0 cs)
  have hbasev : (diagBase cs (exclusivePrefixSum 0 cs)).values
      = List.replicate ((cs.map (fun s => s * s)).sum) (0 : ℚ) := by
    have h1 := setZero_values
      (BlockSparseMatrix.ofBlockStructure (diagBS cs (exclusivePrefixSum 0 cs)))
      (by simp [BlockSparseMatrix.ofBlockStructure])
    exact h1.trans (congrArg (fun n => List.replicate n (0 : ℚ)) hnnz)
  have hdvo : diagValsOk d
      (createDiagonalMatrix d cs (exclusivePrefixSum 0 cs)).values 0 0 cs := by
    show diagValsOk d
      (fillDiagValues d 0 0 (diagBase cs (exclusivePrefixSum 0 cs)).values cs)
      0 0 cs
    rw [hbasev]
    apply fillDiag_ok
    · simp
    · intro idx h1 h2
      exact getD_replicate_zero _ idx
  unfold BlockSparseMatrix.toDenseMatrix
  rw [toDenseFun_decomp]
  have haux := diag_dense_aux d (diagBS cs (exclusivePrefixSum 0 cs))
    (createDiagonalMatrix d cs (exclusivePrefixSum 0 cs)).values i j cs 0 0 0
    hcols hdvo
  have h2 : (if 0 ≤ i ∧ i < 0 + cs.sum ∧ i = j then d i else 0)
      = if i = j then d i else 0 := by
    by_cases hij : i = j
    · have hc : 0 ≤ i ∧ i < 0 + cs.sum ∧ i = j := by omega
      rw [if_pos hc, if_pos hij]
    · have hc : ¬(0 ≤ i ∧ i < 0 + cs.sum ∧ i = j) := by omega
      rw [if_neg hc, if_neg hij]
  exact haux.trans h2

/-- The diagonal vector `(3, 4, 5)` of the spec's concrete example. -/
def diag3 : Nat → ℚ :=
  fun k => if k = 0 then 3 else if k = 1 then 4 else 5

/-- Witness for C3: column sizes `[2, 1]`, positions `[0, 2]`, diagonal
`(3, 4, 5)` gives the dense matrix `diag(3, 4, 5)` (sampled entries). -/
theorem createDiagonalMatrix_dense_witness :
    ([0, 2] : List Nat) = exclusivePrefixSum 0 [2, 1]
    ∧ (createDiagonalMatrix diag3 [2, 1] [0, 2]).toDenseMatrix 0 0 = 3
    ∧ (createDiagonalMatrix diag3 [2, 1] [0, 2]).toDenseMatrix 1 1 = 4
    ∧ (createDiagonalMatrix diag3 [2, 1] [0, 2]).toDenseMatrix 2 2 = 5
    ∧ (createDiagonalMatrix diag3 [2, 1] [0, 2]).toDenseMatrix 0 1 = 0
    ∧ (createDiagonalMatrix diag3 [2, 1] [0, 2]).toDenseMatrix 2 0 = 0 :=
  ⟨by decide,
   (createDiagonalMatrix_dense diag3 [2, 1] [0, 2] (by decide) 0 0
     (by decide) (by decide)).trans (by decide),
   (createDiagonalMatrix_dense diag3 [2, 1] [0, 2] (by decide) 1 1
     (by decide) (by decide)).trans (by decide),
   (createDiagonalMatrix_dense diag3 [2, 1] [0, 2] (by decide) 2 2
     (by decide) (by decide)).trans (by decide),
   (createDiagonalMatrix_dense diag3 [2, 1] [0, 2] (by decide) 0 1
     (by decide) (by decide)).trans (by decide),
   (createDiagonalMatrix_dense diag3 [2, 1] [0, 2] (by decide) 2 0
     (by decide) (by decide)).trans (by decide)⟩

/-! ### SquaredColumnNorm versus the dense form -/

/-- The descriptor invariant strengthened by distinct column-block ids
within each row (no duplicate cells), so that no two cells overlap. -/
def BlockSparseMatrix.wfDistinct (A : BlockSparseMatrix) : Prop :=
  A.wf ∧ ∀ row ∈ A.block_structure.rows,
    (row.cells.map (fun cell => cell.block_id)).Nodup

instance (A : BlockSparseMatrix) : Decidable A.wfDistinct := by
  unfold BlockSparseMatrix.wfDistinct
  infer_instance

/-- The dense contribution of the structure cell `a` of `A` at an index
pair. -/
def ddD (A : BlockSparseMatrix) (a : CompressedRow × Cell)
    (p : Nat × Nat) : ℚ :=
  ddCellDelta A.values a.1.block.position a.1.block.size
    (colPosition A.block_structure a.2.block_id)
    (colSize A.block_structure a.2.block_id) a.2.position p

/-- The index rectangle covered by the structure cell `a`. -/
def covers (A : BlockSparseMatrix) (a : CompressedRow × Cell)
    (p : Nat × Nat) : Prop :=
  a.1.block.position ≤ p.1 ∧ p.1 < a.1.block.position + a.1.block.size
  ∧ colPosition A.block_structure a.2.block_id ≤ p.2
  ∧ p.2 < colPosition A.block_structure a.2.block_id
      + colSize A.block_structure a.2.block_id

theorem ddD_eq_zero_of_not_covers (A : BlockSparseMatrix)
    (a : CompressedRow × Cell) (p : Nat × Nat) (h : ¬ covers A a p) :
    ddD A a p = 0 := by
  unfold ddD ddCellDelta
  rw [if_neg]
  exact h

theorem nested_sum_eq_pairs (R : List CompressedRow)
    (F : CompressedRow → Cell → ℚ) :
    (R.map (fun row => (row.cells.map (fun cell => F row cell)).sum)).sum
      = ((R.flatMap (fun row => row.cells.map (fun cell => (row, cell)))).map
          (fun a => F a.1 a.2)).sum := by
  induction R with
  | nil => rfl
  | cons r t ih =>
    simp only [List.map_cons, List.sum_cons, List.flatMap_cons,
      List.map_append, List.sum_append, List.map_map]
    rw [ih]
    rfl

theorem toDenseFun_pairs (A : BlockSparseMatrix) :
    A.toDenseFun
      = fun p => ((cellPairs A.block_structure).map
          (fun a => ddD A a p)).sum := by
  rw [toDenseFun_decomp]
  funext p
  exact nested_sum_eq_pairs A.block_structure.rows _

theorem cellPairs_mem {bs : CompressedRowBlockStructure}
    {a : CompressedRow × Cell} (h : a ∈ cellPairs bs) :
    a.1 ∈ bs.rows ∧ a.2 ∈ a.1.cells := by
  unfold cellPairs at h
  obtain ⟨row, hrow, hm⟩ := List.mem_flatMap.mp h
  obtain ⟨cell, hcell, rfl⟩ := List.mem_map.mp hm
  exact ⟨hrow, hcell⟩

theorem eps_getD_mono (l : List Nat) :
    ∀ (start i1 i2 : Nat), i1 < i2 → i2 < l.length →
    (exclusivePrefixSum start l).getD i1 0 + l.getD i1 0
      ≤ (exclusivePrefixSum start l).getD i2 0 := by
  induction l with
  | nil => intro start i1 i2 h1 h2; simp at h2
  | cons s rest ih =>
    intro start i1 i2 h1 h2
    cases i1 with
    | zero =>
      cases i2 with
      | zero => omega
      | succ n2 =>
        simp only [exclusivePrefixSum, List.getD_cons_zero,
          List.getD_cons_succ]
        have h3 := (eps_getD_bound rest (start + s) n2 (by simpa using h2)).1
        omega
    | succ n1 =>
      cases i2 with
      | zero => omega
      | succ n2 =>
        simp only [exclusivePrefixSum, List.getD_cons_succ]
        exact ih (start + s) n1 n2 (by omega) (by simpa using h2)

theorem rows_pos_pairwise (rows : List CompressedRow) :
    ∀ start : Nat,
    rows.map (fun r => r.block.position)
      = exclusivePrefixSum start (rows.map (fun r => r.block.size)) →
    List.Pairwise
      (fun r1 r2 => r1.block.position + r1.block.size ≤ r2.block.position)
      rows := by
  induction rows with
  | nil => intro start h; exact List.Pairwise.nil
  | cons r t ih =>
    intro start h
    simp only [List.map_cons, exclusivePrefixSum, List.cons.injEq] at h
    obtain ⟨h1, h2⟩ := h
    constructor
    · intro r2 hr2
      have h3 := rows_pos_bound t (start + r.block.size) h2 r2 hr2
      omega
    · exact ih (start + r.block.size) h2

theorem pairwise_cellPairs {P : CompressedRow × Cell → CompressedRow × Cell → Prop}
    (R : List CompressedRow)
    (hrow : List.Pairwise (fun r1 r2 =>
      ∀ c1 ∈ r1.cells, ∀ c2 ∈ r2.cells, P (r1, c1) (r2, c2)) R)
    (hcell : ∀ r ∈ R,
      List.Pairwise (fun c1 c2 => P (r, c1) (r, c2)) r.cells) :
    List.Pairwise P
      (R.flatMap (fun row => row.cells.map (fun cell => (row, cell)))) := by
  induction R with
  | nil => simp
  | cons r t ih =>
    simp only [List.flatMap_cons]
    rw [List.pairwise_append]
    refine ⟨?_, ?_, ?_⟩
    · rw [List.pairwise_map]
      exact hcell r (List.mem_cons_self r t)
    · exact ih (List.pairwise_cons.mp hrow).2
        (fun r2 h2 => hcell r2 (List.mem_cons_of_mem r h2))
    · intro a ha b hb
      obtain ⟨c1, hc1, rfl⟩ := List.mem_map.mp ha
      obtain ⟨row2, hrow2, hb2⟩ := List.mem_flatMap.mp hb
      obtain ⟨c2, hc2, rfl⟩ := List.mem_map.mp hb2
      exact (List.pairwise_cons.mp hrow).1 row2 hrow2 c1 hc1 c2 hc2

/-- Under the invariant with distinct ids per row, the coverage rectangles
of distinct structure cells are disjoint. -/
theorem cellPairs_disjoint (A : BlockSparseMatrix) (h : A.wfDistinct) :
    List.Pairwise
      (fun a b => ∀ p : Nat × Nat, ¬(covers A a p ∧ covers A b p))
      (cellPairs A.block_structure) := by
  obtain ⟨⟨⟨hcol, hrowpos, hids, hoff⟩, hnc, hnr, hnnz, hlen⟩, hnodup⟩ := h
  apply pairwise_cellPairs
  · have hp := rows_pos_pairwise A.block_structure.rows 0 hrowpos
    apply List.Pairwise.imp ?_ hp
    intro r1 r2 h12 c1 hc1 c2 hc2 p hcov
    simp only [covers] at hcov
    obtain ⟨⟨a1, a2, a3, a4⟩, ⟨b1, b2, b3, b4⟩⟩ := hcov
    omega
  · intro r hr
    have hnd := hnodup r hr
    rw [List.Nodup, List.pairwise_map] at hnd
    apply List.Pairwise.imp_of_mem ?_ hnd
    intro c1 c2 h1mem h2mem hne p hcov
    have hid1 : c1.block_id < A.block_structure.col_sizes.length :=
      hids r hr c1 h1mem
    have hid2 : c2.block_id < A.block_structure.col_sizes.length :=
      hids r hr c2 h2mem
    simp only [covers] at hcov
    obtain ⟨⟨a1, a2, a3, a4⟩, ⟨b1, b2, b3, b4⟩⟩ := hcov
    simp only [colPosition, colSize, hcol] at a3 a4 b3 b4
    rcases Nat.lt_or_ge c1.block_id c2.block_id with hlt | hge
    · have hm := eps_getD_mono A.block_structure.col_sizes 0
        c1.block_id c2.block_id hlt hid2
      omega
    · have hlt2 : c2.block_id < c1.block_id := by omega
      have hm := eps_getD_mono A.block_structure.col_sizes 0
        c2.block_id c1.block_id hlt2 hid1
      omega

theorem sum_sq_of_disjoint (n : Nat) {α : Type _} :
    ∀ (L : List α) (D : α → Nat → ℚ),
    List.Pairwise (fun a b => ∀ i, D a i = 0 ∨ D b i = 0) L →
    ∑ i ∈ Finset.range n, ((L.map (fun a => D a i)).sum) ^ 2
      = (L.map (fun a => ∑ i ∈ Finset.range n, D a i ^ 2)).sum := by
  intro L
  induction L with
  | nil => intro D hp; simp
  | cons a t ih =>
    intro D hp
    obtain ⟨hab, ht⟩ := List.pairwise_cons.mp hp
    simp only [List.map_cons, List.sum_cons]
    have hcross : ∀ i, D a i * (t.map (fun b => D b i)).sum = 0 := by
      intro i
      rw [list_mul_sum_left]
      apply List.sum_eq_zero
      intro q hq
      obtain ⟨b, hb, rfl⟩ := List.mem_map.mp hq
      rcases hab b hb i with h | h <;> simp [h]
    calc ∑ i ∈ Finset.range n, (D a i + (t.map (fun b => D b i)).sum) ^ 2
        = ∑ i ∈ Finset.range n, (D a i ^ 2
            + (2 * (D a i * (t.map (fun b => D b i)).sum)
               + ((t.map (fun b => D b i)).sum) ^ 2)) := by
          apply Finset.sum_congr rfl
          intro i _
          ring
      _ = ∑ i ∈ Finset.range n,
            (D a i ^ 2 + ((t.map (fun b => D b i)).sum) ^ 2) := by
          apply Finset.sum_congr rfl
          intro i _
          rw [hcross i]
          ring
      _ = (∑ i ∈ Finset.range n, D a i ^ 2)
            + ∑ i ∈ Finset.range n, ((t.map (fun b => D b i)).sum) ^ 2 :=
          Finset.sum_add_distrib
      _ = _ := by rw [ih D ht]

theorem cell_sq_sum (vals : List ℚ) (vpos rbs cbs cbp rbp k nR : Nat)
    (hb : rbp + rbs ≤ nR) :
    ∑ i ∈ Finset.range nR,
        ddCellDelta vals rbp rbs cbp cbs vpos (i, k) ^ 2
      = sqCellDelta vals vpos rbs cbs cbp k := by
  unfold ddCellDelta sqCellDelta
  by_cases hk : cbp ≤ k ∧ k < cbp + cbs
  · have he : ∀ i : Nat,
        (if rbp ≤ i ∧ i < rbp + rbs ∧ cbp ≤ k ∧ k < cbp + cbs then
          vals.getD (vpos + (i - rbp) * cbs + (k - cbp)) 0 else 0) ^ 2
        = (if rbp ≤ i ∧ i < rbp + rbs then
            vals.getD (vpos + (i - rbp) * cbs + (k - cbp)) 0 ^ 2 else 0) := by
      intro i
      by_cases hi : rbp ≤ i ∧ i < rbp + rbs
      · rw [if_pos ⟨hi.1, hi.2, hk.1, hk.2⟩, if_pos hi]
      · have hni : ¬(rbp ≤ i ∧ i < rbp + rbs ∧ cbp ≤ k ∧ k < cbp + cbs) := by
          omega
        rw [if_neg hni, if_neg hi]
        ring
    rw [Finset.sum_congr rfl (fun i _ => he i)]
    rw [sum_range_window nR rbp rbs hb]
    rw [if_pos hk]
    simp only [Nat.add_sub_cancel_left]
  · rw [if_neg hk]
    apply Finset.sum_eq_zero
    intro i _
    have hni : ¬(rbp ≤ i ∧ i < rbp + rbs ∧ cbp ≤ k ∧ k < cbp + cbs) := by
      omega
    rw [if_neg hni]
    ring

/-- C5 (amended): for a matrix satisfying the descriptor invariant with
distinct column-block ids per row (so no two cells overlap),
`SquaredColumnNorm` leaves, at every column index `k < num_cols`, the sum
of squares of column `k` of the dense form, for any prior contents of the
output vector. -/
theorem squaredColumnNorm_eq_dense (A : BlockSparseMatrix) (x : Nat → ℚ)
    (k : Nat) (hwf : A.wfDistinct) (hk : k < A.num_cols) :
    A.squaredColumnNorm x k
      = ∑ i ∈ Finset.range A.num_rows, A.toDenseMatrix i k ^ 2 := by
  have hdisj := cellPairs_disjoint A hwf
  obtain ⟨⟨⟨hcol, hrowpos, hids, hoff⟩, hnc, hnr, hnnz, hlen⟩, hnodup⟩ := hwf
  have eL : A.squaredColumnNorm x k
      = ((cellPairs A.block_structure).map (fun a =>
          sqCellDelta A.values a.2.position a.1.block.size
            (colSize A.block_structure a.2.block_id)
            (colPosition A.block_structure a.2.block_id) k)).sum := by
    calc A.squaredColumnNorm x k
        = (if k < A.num_cols then 0 else x k)
          + (A.block_structure.rows.map (fun row =>
              (row.cells.map (fun cell =>
                sqCellDelta A.values cell.position row.block.size
                  (colSize A.block_structure cell.block_id)
                  (colPosition A.block_structure cell.block_id) k)).sum)).sum
          := by rw [squaredColumnNorm_decomp]
      _ = (A.block_structure.rows.map (fun row =>
              (row.cells.map (fun cell =>
                sqCellDelta A.values cell.position row.block.size
                  (colSize A.block_structure cell.block_id)
                  (colPosition A.block_structure cell.block_id) k)).sum)).sum
          := by rw [if_pos hk, zero_add]
      _ = _ := nested_sum_eq_pairs A.block_structure.rows _
  have h1 : ∀ i : Nat, A.toDenseMatrix i k
      = ((cellPairs A.block_structure).map (fun a => ddD A a (i, k))).sum := by
    intro i
    show A.toDenseFun (i, k) = _
    rw [toDenseFun_pairs]
  have eR : ∑ i ∈ Finset.range A.num_rows, A.toDenseMatrix i k ^ 2
      = ((cellPairs A.block_structure).map (fun a =>
          ∑ i ∈ Finset.range A.num_rows, ddD A a (i, k) ^ 2)).sum := by
    calc ∑ i ∈ Finset.range A.num_rows, A.toDenseMatrix i k ^ 2
        = ∑ i ∈ Finset.range A.num_rows,
            ((cellPairs A.block_structure).map (fun a => ddD A a (i, k))).sum
              ^ 2 := by
          apply Finset.sum_congr rfl
          intro i _
          rw [h1 i]
      _ = _ := by
          apply sum_sq_of_disjoint
          apply List.Pairwise.imp ?_ hdisj
          intro a b hab i
          by_cases hca : covers A a (i, k)
          · right
            apply ddD_eq_zero_of_not_covers
            intro hcb
            exact hab (i, k) ⟨hca, hcb⟩
          · left
            exact ddD_eq_zero_of_not_covers A a (i, k) hca
  rw [eL, eR]
  refine congrArg List.sum ?_
  apply List.map_congr_left
  intro a ha
  have hmem := cellPairs_mem ha
  have hb : a.1.block.position + a.1.block.size ≤ A.num_rows := by
    have h3 := rows_pos_bound A.block_structure.rows 0 hrowpos a.1 hmem.1
    omega
  exact (cell_sq_sum A.values a.2.position a.1.block.size
    (colSize A.block_structure a.2.block_id)
    (colPosition A.block_structure a.2.block_id)
    a.1.block.position k A.num_rows hb).symm

/-- The duplicate-cell descriptor: one 1×1 row block whose row lists the
same column block twice (cells at value offsets `0` and `1`). -/
def bs5 : CompressedRowBlockStructure :=
  { col_sizes := [1]
    col_positions := [0]
    rows := [{ block := { size := 1, position := 0 }
               cells := [{ block_id := 0, position := 0 },
                         { block_id := 0, position := 1 }] }] }

/-- The duplicate-cell matrix with value buffer `[1, 1]`. -/
def M5 : BlockSparseMatrix :=
  { BlockSparseMatrix.ofBlockStructure bs5 with values := [1, 1] }

/-- Counterexample for C5 as stated: `M5` satisfies the descriptor
invariant of spec section 3, yet `SquaredColumnNorm` puts `2` in column
`0` while the dense form's column `0` has squared norm `4`. -/
theorem squaredColumnNorm_counterexample :
    M5.wf
    ∧ M5.squaredColumnNorm (fun _ => 0) 0 = 2
    ∧ ∑ i ∈ Finset.range M5.num_rows, M5.toDenseMatrix i 0 ^ 2 = 4 := by
  have hb : M5.block_structure = bs5 := rfl
  have hv : M5.values = [1, 1] := rfl
  have hc : M5.num_cols = 1 := by decide
  have hnr : M5.num_rows = 1 := by decide
  refine ⟨by decide, ?_, ?_⟩
  · show (BlockSparseMatrix.squaredColumnNorm M5 (fun _ => 0)) 0 = 2
    simp only [BlockSparseMatrix.squaredColumnNorm, squaredNormAcc, hb, hv,
      hc, bs5, colSize, colPosition, Finset.sum_range_succ,
      Finset.sum_range_zero, List.foldl_cons, List.foldl_nil]
    norm_num
  · rw [hnr]
    simp only [BlockSparseMatrix.toDenseMatrix, BlockSparseMatrix.toDenseFun,
      addBlockDense, hb, hv, bs5, colSize, colPosition,
      Finset.sum_range_succ, Finset.sum_range_zero, List.foldl_cons,
      List.foldl_nil]
    norm_num

/-- Witness for the amended C5 at the concrete matrix `A0`. -/
theorem squaredColumnNorm_eq_dense_witness :
    A0.wfDistinct ∧ 0 < A0.num_cols
    ∧ A0.squaredColumnNorm (fun _ => 7) 0
        = ∑ i ∈ Finset.range A0.num_rows, A0.toDenseMatrix i 0 ^ 2 :=
  ⟨by decide, by decide,
   squaredColumnNorm_eq_dense A0 (fun _ => 7) 0 (by decide) (by decide)⟩

/-! ### ToTripletSparseMatrix -/

theorem foldl_proj {T L β : Type _} (proj : T → L) (F : T → β → T)
    (G : L → β → L) (h : ∀ t b, proj (F t b) = G (proj t) b) :
    ∀ (l : List β) (t : T), proj (l.foldl F t) = l.foldl G (proj t) := by
  intro l
  induction l with
  | nil => intro t; rfl
  | cons b bt ih =>
    intro t
    simp only [List.foldl_cons]
    rw [ih, h]

theorem foldl_nested_pairs {T : Type _} (R : List CompressedRow)
    (F : T → CompressedRow × Cell → T) :
    ∀ t : T,
    R.foldl (fun t row => row.cells.foldl (fun t cell => F t (row, cell)) t) t
      = (R.flatMap (fun row =>
          row.cells.map (fun cell => (row, cell)))).foldl F t := by
  induction R with
  | nil => intro t; rfl
  | cons r rest ih =>
    intro t
    simp only [List.foldl_cons, List.flatMap_cons, List.foldl_append]
    rw [List.foldl_map, ih]

/-- The writes of one cell on one output array: for every
`(r, c)` in the block, the entry `f r c` is written at index
`vpos + r * cbs + c`. -/
def writeCellList {α : Type _} (f : Nat → Nat → α) (rbs cbs vpos : Nat)
    (arr : List α) : List α :=
  (List.range rbs).foldl
    (fun arr r =>
      (List.range cbs).foldl
        (fun arr c => arr.set (vpos + r * cbs + c) (f r c)) arr)
    arr

theorem foldl_keep {β L : Type _} : ∀ (l : List β) (x : L),
    l.foldl (fun n _ => n) x = x := by
  intro l
  induction l with
  | nil => intro x; rfl
  | cons b bt ih => intro x; exact ih x

theorem writeCellTriplets_rows (vals : List ℚ) (rbp rbs cbp cbs vpos : Nat)
    (t : TripletSparseMatrix) :
    (writeCellTriplets vals rbp rbs cbp cbs vpos t).rows
      = writeCellList (fun r c => rbp + r) rbs cbs vpos t.rows := by
  unfold writeCellTriplets writeCellList
  refine foldl_proj _ _ _ ?_ (List.range rbs) t
  intro t r
  refine foldl_proj _ _ _ ?_ (List.range cbs) t
  intro t c
  rfl

theorem writeCellTriplets_cols (vals : List ℚ) (rbp rbs cbp cbs vpos : Nat)
    (t : TripletSparseMatrix) :
    (writeCellTriplets vals rbp rbs cbp cbs vpos t).cols
      = writeCellList (fun r c => cbp + c) rbs cbs vpos t.cols := by
  unfold writeCellTriplets writeCellList
  refine foldl_proj _ _ _ ?_ (List.range rbs) t
  intro t r
  refine foldl_proj _ _ _ ?_ (List.range cbs) t
  intro t c
  rfl

theorem writeCellTriplets_values (vals : List ℚ)
    (rbp rbs cbp cbs vpos : Nat) (t : TripletSparseMatrix) :
    (writeCellTriplets vals rbp rbs cbp cbs vpos t).values
      = writeCellList (fun r c => vals.getD (vpos + r * cbs + c) 0)
          rbs cbs vpos t.values := by
  unfold writeCellTriplets writeCellList
  refine foldl_proj _ _ _ ?_ (List.range rbs) t
  intro t r
  refine foldl_proj _ _ _ ?_ (List.range cbs) t
  intro t c
  rfl

theorem writeCellTriplets_counts (vals : List ℚ)
    (rbp rbs cbp cbs vpos : Nat) (t : TripletSparseMatrix) :
    (writeCellTriplets vals rbp rbs cbp cbs vpos t).num_rows = t.num_rows
    ∧ (writeCellTriplets vals rbp rbs cbp cbs vpos t).num_cols = t.num_cols
    ∧ (writeCellTriplets vals rbp rbs cbp cbs vpos t).num_nonzeros
        = t.num_nonzeros := by
  unfold writeCellTriplets
  refine ⟨?_, ?_, ?_⟩
  · refine Eq.trans (foldl_proj (fun t => t.num_rows) _
      (fun n (_ : Nat) => n) ?_ (List.range rbs) t) (foldl_keep _ _)
    intro t r
    refine Eq.trans (foldl_proj (fun t => t.num_rows) _
      (fun n (_ : Nat) => n) ?_ (List.range cbs) t) (foldl_keep _ _)
    intro t c
    rfl
  · refine Eq.trans (foldl_proj (fun t => t.num_cols) _
      (fun n (_ : Nat) => n) ?_ (List.range rbs) t) (foldl_keep _ _)
    intro t r
    refine Eq.trans (foldl_proj (fun t => t.num_cols) _
      (fun n (_ : Nat) => n) ?_ (List.range cbs) t) (foldl_keep _ _)
    intro t c
    rfl
  · refine Eq.trans (foldl_proj (fun t => t.num_nonzeros) _
      (fun n (_ : Nat) => n) ?_ (List.range rbs) t) (foldl_keep _ _)
    intro t r
    refine Eq.trans (foldl_proj (fun t => t.num_nonzeros) _
      (fun n (_ : Nat) => n) ?_ (List.range cbs) t) (foldl_keep _ _)
    intro t c
    rfl

/-- Sequential writes: the elements of `run` are written at the
consecutive indices starting at `pos`. -/
def writeSeq {α : Type _} : List α → Nat → List α → List α
  | arr, _, [] => arr
  | arr, pos, a :: rest => writeSeq (arr.set pos a) (pos + 1) rest

theorem writeSeq_length {α : Type _} :
    ∀ (run arr : List α) (pos : Nat),
    (writeSeq arr pos run).length = arr.length := by
  intro run
  induction run with
  | nil => intro arr pos; rfl
  | cons a rest ih =>
    intro arr pos
    show (writeSeq (arr.set pos a) (pos + 1) rest).length = _
    rw [ih, List.length_set]

theorem set_eq_take_cons_drop {α : Type _} :
    ∀ (arr : List α) (p : Nat) (a : α), p < arr.length →
    arr.set p a = arr.take p ++ a :: arr.drop (p + 1) := by
  intro arr
  induction arr with
  | nil => intro p a h; simp at h
  | cons x xs ih =>
    intro p a h
    cases p with
    | zero => simp
    | succ n =>
      have h2 : n < xs.length := by simpa using h
      simp only [List.set_cons_succ, List.take_succ_cons, List.drop_succ_cons,
        List.cons_append]
      rw [ih n a h2]

theorem writeSeq_eq {α : Type _} :
    ∀ (run arr : List α) (pos : Nat), pos + run.length ≤ arr.length →
    writeSeq arr pos run
      = arr.take pos ++ run ++ arr.drop (pos + run.length) := by
  intro run
  induction run with
  | nil =>
    intro arr pos h
    show arr = _
    simp only [List.length_nil, Nat.add_zero, List.nil_append,
      List.append_nil]
    exact (List.take_append_drop pos arr).symm
  | cons a rest ih =>
    intro arr pos h
    have hp : pos < arr.length := by
      simp only [List.length_cons] at h
      omega
    show writeSeq (arr.set pos a) (pos + 1) rest = _
    rw [ih (arr.set pos a) (pos + 1)
      (by rw [List.length_set]; simp only [List.length_cons] at h; omega)]
    rw [set_eq_take_cons_drop arr pos a hp]
    have htake : (arr.take pos ++ a :: arr.drop (pos + 1)).take (pos + 1)
        = arr.take pos ++ [a] := by
      have hlen : (arr.take pos ++ [a]).length = pos + 1 := by
        simp [List.length_take, Nat.min_eq_left (Nat.le_of_lt hp)]
      have hsplit : arr.take pos ++ a :: arr.drop (pos + 1)
          = (arr.take pos ++ [a]) ++ arr.drop (pos + 1) := by
        simp
      rw [hsplit, List.take_left' hlen]
    have hdrop : (arr.take pos ++ a :: arr.drop (pos + 1)).drop
          (pos + 1 + rest.length)
        = arr.drop (pos + (a :: rest).length) := by
      have hlen : (arr.take pos ++ [a]).length = pos + 1 := by
        simp [List.length_take, Nat.min_eq_left (Nat.le_of_lt hp)]
      have hsplit : arr.take pos ++ a :: arr.drop (pos + 1)
          = (arr.take pos ++ [a]) ++ arr.drop (pos + 1) := by
        simp
      rw [hsplit]
      have h1 : pos + 1 + rest.length = (arr.take pos ++ [a]).length
          + rest.length := by rw [hlen]
      rw [h1, List.drop_append]
      rw [List.drop_drop]
      congr 1
      simp
      omega
    rw [htake, hdrop]
    simp

/-- The row-major enumeration of one cell's entries: `f r c` for
`r < rbs`, `c < cbs`, `c` fastest. -/
def cellFlat {α : Type _} (f : Nat → Nat → α) (rbs cbs : Nat) : List α :=
  (List.range rbs).flatMap (fun r => (List.range cbs).map (f r))

theorem flatMap_range_map_length {α : Type _} (g : Nat → Nat → α)
    (cbs : Nat) :
    ∀ rbs, ((List.range rbs).flatMap
      (fun r => (List.range cbs).map (g r))).length = rbs * cbs := by
  intro rbs
  induction rbs with
  | zero => simp
  | succ n ih =>
    rw [List.range_succ, List.flatMap_append, List.length_append, ih]
    simp only [List.flatMap_cons, List.flatMap_nil, List.append_nil,
      List.length_map, List.length_range]
    ring

theorem cellFlat_length {α : Type _} (f : Nat → Nat → α) (rbs cbs : Nat) :
    (cellFlat f rbs cbs).length = rbs * cbs :=
  flatMap_range_map_length f cbs rbs

theorem writeSeq_append {α : Type _} :
    ∀ (xs ys : List α) (arr : List α) (pos : Nat),
    writeSeq arr pos (xs ++ ys)
      = writeSeq (writeSeq arr pos xs) (pos + xs.length) ys := by
  intro xs
  induction xs with
  | nil => intro ys arr pos; simp [writeSeq]
  | cons a rest ih =>
    intro ys arr pos
    show writeSeq (arr.set pos a) (pos + 1) (rest ++ ys) = _
    rw [ih]
    have he : pos + 1 + rest.length = pos + (rest.length + 1) := by omega
    rw [he]
    rfl

theorem foldl_range_set_eq_writeSeq {α : Type _} (g : Nat → α) (p : Nat) :
    ∀ (m : Nat) (arr : List α),
    (List.range m).foldl (fun arr c => arr.set (p + c) (g c)) arr
      = writeSeq arr p ((List.range m).map g) := by
  intro m
  induction m with
  | zero => intro arr; rfl
  | succ n ih =>
    intro arr
    rw [List.range_succ, List.foldl_append, List.map_append, writeSeq_append,
      ih]
    simp [writeSeq, List.length_map, List.length_range]

theorem writeCellList_eq_writeSeq {α : Type _} (f : Nat → Nat → α)
    (cbs : Nat) :
    ∀ (rbs vpos : Nat) (arr : List α),
    writeCellList f rbs cbs vpos arr
      = writeSeq arr vpos (cellFlat f rbs cbs) := by
  intro rbs
  induction rbs with
  | zero => intro vpos arr; rfl
  | succ n ih =>
    intro vpos arr
    show (List.range (n + 1)).foldl
      (fun arr r => (List.range cbs).foldl
        (fun arr c => arr.set (vpos + r * cbs + c) (f r c)) arr) arr = _
    rw [List.range_succ, List.foldl_append]
    simp only [List.foldl_cons, List.foldl_nil]
    have hpre : (List.range n).foldl
        (fun arr r => (List.range cbs).foldl
          (fun arr c => arr.set (vpos + r * cbs + c) (f r c)) arr) arr
        = writeSeq arr vpos (cellFlat f n cbs) := ih vpos arr
    rw [hpre]
    rw [foldl_range_set_eq_writeSeq (f n) (vpos + n * cbs) cbs]
    show _ = writeSeq arr vpos (cellFlat f (n + 1) cbs)
    unfold cellFlat
    rw [List.range_succ, List.flatMap_append, writeSeq_append,
      flatMap_range_map_length f cbs n]
    simp only [List.flatMap_cons, List.flatMap_nil, List.append_nil]

/-- The offsets of the cells of `L` are consecutive starting at `k`: each
cell's value offset is `k` plus the areas of the cells before it. -/
def pairsOffsetsFrom (bs : CompressedRowBlockStructure) :
    Nat → List (CompressedRow × Cell) → Prop
  | _, [] => True
  | k, a :: rest =>
      a.2.position = k ∧ pairsOffsetsFrom bs (k + cellArea bs a) rest

theorem offsets_of_eps (bs : CompressedRowBlockStructure) :
    ∀ (L : List (CompressedRow × Cell)) (k : Nat),
    L.map (fun a => a.2.position)
      = exclusivePrefixSum k (L.map (cellArea bs)) →
    pairsOffsetsFrom bs k L := by
  intro L
  induction L with
  | nil => intro k h; trivial
  | cons a rest ih =>
    intro k h
    simp only [List.map_cons, exclusivePrefixSum, List.cons.injEq] at h
    exact ⟨h.1, ih (k + cellArea bs a) h.2⟩

theorem foldPairs_writes (bs : CompressedRowBlockStructure) {α : Type _}
    (f : CompressedRow × Cell → Nat → Nat → α) :
    ∀ (L : List (CompressedRow × Cell)) (k : Nat) (arr : List α),
    pairsOffsetsFrom bs k L →
    k + (L.map (cellArea bs)).sum ≤ arr.length →
    L.foldl (fun arr a => writeCellList (f a) a.1.block.size
      (colSize bs a.2.block_id) a.2.position arr) arr
      = arr.take k
        ++ L.flatMap (fun a => cellFlat (f a) a.1.block.size
            (colSize bs a.2.block_id))
        ++ arr.drop (k + (L.map (cellArea bs)).sum) := by
  intro L
  induction L with
  | nil =>
    intro k arr h1 h2
    simp only [List.foldl_nil, List.flatMap_nil, List.map_nil, List.sum_nil,
      List.nil_append, List.append_nil, Nat.add_zero]
    exact (List.take_append_drop k arr).symm
  | cons a rest ih =>
    intro k arr h1 h2
    obtain ⟨hpos, hrest⟩ := h1
    simp only [List.map_cons, List.sum_cons] at h2
    have harea : (cellFlat (f a) a.1.block.size
        (colSize bs a.2.block_id)).length = cellArea bs a := by
      rw [cellFlat_length]
      rfl
    simp only [List.foldl_cons]
    rw [hpos, writeCellList_eq_writeSeq, writeSeq_eq _ _ _ (by omega)]
    have hlen2 : (arr.take k
        ++ cellFlat (f a) a.1.block.size (colSize bs a.2.block_id)
        ++ arr.drop (k + (cellFlat (f a) a.1.block.size
            (colSize bs a.2.block_id)).length)).length = arr.length := by
      simp only [List.length_append, List.length_take, List.length_drop,
        harea]
      omega
    rw [ih (k + cellArea bs a) _ hrest (by rw [hlen2]; omega)]
    have hsplit : arr.take k
        ++ cellFlat (f a) a.1.block.size (colSize bs a.2.block_id)
        ++ arr.drop (k + (cellFlat (f a) a.1.block.size
            (colSize bs a.2.block_id)).length)
        = (arr.take k
            ++ cellFlat (f a) a.1.block.size (colSize bs a.2.block_id))
          ++ arr.drop (k + cellArea bs a) := by
      simp [List.append_assoc, harea]
    have hplen : (arr.take k
        ++ cellFlat (f a) a.1.block.size (colSize bs a.2.block_id)).length
        = k + cellArea bs a := by
      simp only [List.length_append, List.length_take, harea]
      omega
    rw [hsplit]
    have htake : ((arr.take k
          ++ cellFlat (f a) a.1.block.size (colSize bs a.2.block_id))
          ++ arr.drop (k + cellArea bs a)).take (k + cellArea bs a)
        = arr.take k
          ++ cellFlat (f a) a.1.block.size (colSize bs a.2.block_id) :=
      List.take_left' hplen
    have hdrop : ((arr.take k
          ++ cellFlat (f a) a.1.block.size (colSize bs a.2.block_id))
          ++ arr.drop (k + cellArea bs a)).drop
            (k + cellArea bs a + (rest.map (cellArea bs)).sum)
        = arr.drop (k + (cellArea bs a + (rest.map (cellArea bs)).sum))
        := by
      have h3 : k + cellArea bs a + (rest.map (cellArea bs)).sum
          = (arr.take k ++ cellFlat (f a) a.1.block.size
              (colSize bs a.2.block_id)).length
            + (rest.map (cellArea bs)).sum := by rw [hplen]
      rw [h3, List.drop_append, List.drop_drop]
      congr 1
      omega
    rw [htake, hdrop]
    simp [List.flatMap_cons, List.append_assoc]

theorem flatMap_map_comp {α β γ : Type _} (l : List α) (f : α → β)
    (g : β → List γ) :
    (l.map f).flatMap g = l.flatMap (fun x => g (f x)) := by
  induction l with
  | nil => rfl
  | cons a t ih => simp only [List.map_cons, List.flatMap_cons, ih]

theorem flatMap_pairs_nested {α : Type _} (R : List CompressedRow)
    (g : CompressedRow → Cell → List α) :
    (R.flatMap (fun row =>
      row.cells.map (fun cell => (row, cell)))).flatMap (fun a => g a.1 a.2)
      = R.flatMap (fun row => row.cells.flatMap (fun cell => g row cell)) := by
  induction R with
  | nil => rfl
  | cons r t ih =>
    simp only [List.flatMap_cons, List.flatMap_append, ih]
    congr 1
    rw [flatMap_map_comp]

theorem writeCellList_length {α : Type _} (f : Nat → Nat → α)
    (rbs cbs vpos : Nat) (arr : List α) :
    (writeCellList f rbs cbs vpos arr).length = arr.length := by
  rw [writeCellList_eq_writeSeq]
  exact writeSeq_length _ arr vpos

theorem foldl_length_preserve {α β : Type _} (F : List α → β → List α)
    (h : ∀ arr b, (F arr b).length = arr.length) :
    ∀ (l : List β) (arr : List α), (l.foldl F arr).length = arr.length := by
  intro l
  induction l with
  | nil => intro arr; rfl
  | cons b t ih =>
    intro arr
    rw [List.foldl_cons, ih, h]

/-- Specification enumeration (spec 4.8) of the triple row indices: for
every row, every cell, every row offset `r` and column offset `c` of the
block, in that order, the global row index `row_block_position + r`. -/
def tripletRowsSpec (A : BlockSparseMatrix) : List Nat :=
  A.block_structure.rows.flatMap (fun row =>
    row.cells.flatMap (fun cell =>
      (List.range row.block.size).flatMap (fun r =>
        (List.range (colSize A.block_structure cell.block_id)).map
          (fun _ => row.block.position + r))))

/-- Specification enumeration (spec 4.8) of the triple column indices:
`column_block_position + c` in the same order. -/
def tripletColsSpec (A : BlockSparseMatrix) : List Nat :=
  A.block_structure.rows.flatMap (fun row =>
    row.cells.flatMap (fun cell =>
      (List.range row.block.size).flatMap (fun r =>
        (List.range (colSize A.block_structure cell.block_id)).map
          (fun c => colPosition A.block_structure cell.block_id + c))))

/-- Specification enumeration (spec 4.8) of the triple values: the cell's
scalar at row-major offset `(r, c)` in the same order. -/
def tripletValuesSpec (A : BlockSparseMatrix) : List ℚ :=
  A.block_structure.rows.flatMap (fun row =>
    row.cells.flatMap (fun cell =>
      (List.range row.block.size).flatMap (fun r =>
        (List.range (colSize A.block_structure cell.block_id)).map
          (fun c => A.values.getD
            (cell.position + r * colSize A.block_structure cell.block_id + c)
            0))))

/-- The generic array-level description of one output array of
`ToTripletSparseMatrix` under the invariant: the pairs fold of the
per-cell writes fills the zero-initialized array with the flattened
per-cell runs. -/
theorem toTriplet_array_eq (A : BlockSparseMatrix) (hwf : A.wf)
    {α : Type _} (f : CompressedRow × Cell → Nat → Nat → α) (z : α) :
    (cellPairs A.block_structure).foldl
      (fun arr a => writeCellList (f a) a.1.block.size
        (colSize A.block_structure a.2.block_id) a.2.position arr)
      (List.replicate A.num_nonzeros z)
      = (cellPairs A.block_structure).flatMap (fun a =>
          cellFlat (f a) a.1.block.size
            (colSize A.block_structure a.2.block_id)) := by
  obtain ⟨⟨hcol, hrowpos, hids, hoff⟩, hnc, hnr, hnnz, hlen⟩ := hwf
  have hofs := offsets_of_eps A.block_structure (cellPairs A.block_structure)
    0 hoff
  have hbound : 0 + ((cellPairs A.block_structure).map
        (cellArea A.block_structure)).sum
      ≤ (List.replicate A.num_nonzeros z).length := by
    simp only [List.length_replicate]
    omega
  rw [foldPairs_writes A.block_structure f (cellPairs A.block_structure) 0
    (List.replicate A.num_nonzeros z) hofs hbound]
  rw [List.take_zero, List.nil_append]
  have hdrop : (List.replicate A.num_nonzeros z).drop
      (0 + ((cellPairs A.block_structure).map
        (cellArea A.block_structure)).sum) = [] := by
    apply List.drop_eq_nil_of_le
    simp only [List.length_replicate]
    omega
  rw [hdrop, List.append_nil]

theorem toTriplet_proj (A : BlockSparseMatrix) (hwf : A.wf) {α : Type _}
    (proj : TripletSparseMatrix → List α)
    (f : CompressedRow × Cell → Nat → Nat → α) (z : α)
    (hinit : proj (tripletInit A) = List.replicate A.num_nonzeros z)
    (hstep : ∀ (t : TripletSparseMatrix) (a : CompressedRow × Cell),
      proj (writeCellTriplets A.values a.1.block.position a.1.block.size
        (colPosition A.block_structure a.2.block_id)
        (colSize A.block_structure a.2.block_id) a.2.position t)
      = writeCellList (f a) a.1.block.size
          (colSize A.block_structure a.2.block_id) a.2.position (proj t)) :
    proj ((cellPairs A.block_structure).foldl
        (fun t a => writeCellTriplets A.values a.1.block.position
          a.1.block.size (colPosition A.block_structure a.2.block_id)
          (colSize A.block_structure a.2.block_id) a.2.position t)
        (tripletInit A))
      = (cellPairs A.block_structure).flatMap (fun a =>
          cellFlat (f a) a.1.block.size
            (colSize A.block_structure a.2.block_id))
    ∧ (proj ((cellPairs A.block_structure).foldl
        (fun t a => writeCellTriplets A.values a.1.block.position
          a.1.block.size (colPosition A.block_structure a.2.block_id)
          (colSize A.block_structure a.2.block_id) a.2.position t)
        (tripletInit A))).length = A.num_nonzeros := by
  have h1 := foldl_proj proj _
    (fun arr a => writeCellList (f a) a.1.block.size
      (colSize A.block_structure a.2.block_id) a.2.position arr)
    hstep (cellPairs A.block_structure) (tripletInit A)
  constructor
  · rw [h1, hinit]
    exact toTriplet_array_eq A hwf f z
  · rw [h1]
    rw [foldl_length_preserve _
      (fun arr a => writeCellList_length (f a) a.1.block.size
        (colSize A.block_structure a.2.block_id) a.2.position arr)
      (cellPairs A.block_structure) (proj (tripletInit A))]
    rw [hinit, List.length_replicate]

/-- The three output arrays of `ToTripletSparseMatrix` under the
invariant: they are exactly the spec enumerations, with length
`num_nonzeros`, and the counts carry over. -/
theorem toTriplet_arrays (A : BlockSparseMatrix) (hwf : A.wf) :
    A.toTripletSparseMatrix.rows = tripletRowsSpec A
    ∧ A.toTripletSparseMatrix.cols = tripletColsSpec A
    ∧ A.toTripletSparseMatrix.values = tripletValuesSpec A
    ∧ A.toTripletSparseMatrix.num_rows = A.num_rows
    ∧ A.toTripletSparseMatrix.num_cols = A.num_cols
    ∧ A.toTripletSparseMatrix.num_nonzeros = A.num_nonzeros
    ∧ A.toTripletSparseMatrix.rows.length = A.num_nonzeros
    ∧ A.toTripletSparseMatrix.cols.length = A.num_nonzeros
    ∧ A.toTripletSparseMatrix.values.length = A.num_nonzeros := by
  have hpairs : ∀ t0 : TripletSparseMatrix,
      A.block_structure.rows.foldl
        (fun t row => row.cells.foldl
          (fun t cell => writeCellTriplets A.values row.block.position
            row.block.size (colPosition A.block_structure cell.block_id)
            (colSize A.block_structure cell.block_id) cell.position t) t) t0
      = (cellPairs A.block_structure).foldl
          (fun t a => writeCellTriplets A.values a.1.block.position
            a.1.block.size (colPosition A.block_structure a.2.block_id)
            (colSize A.block_structure a.2.block_id) a.2.position t) t0 :=
    fun t0 => foldl_nested_pairs A.block_structure.rows
      (fun t a => writeCellTriplets A.values a.1.block.position
        a.1.block.size (colPosition A.block_structure a.2.block_id)
        (colSize A.block_structure a.2.block_id) a.2.position t) t0
  have hrows0 := toTriplet_proj A hwf (fun t => t.rows)
    (fun a r c => a.1.block.position + r) 0 rfl
    (fun t a => writeCellTriplets_rows A.values a.1.block.position
      a.1.block.size (colPosition A.block_structure a.2.block_id)
      (colSize A.block_structure a.2.block_id) a.2.position t)
  have hcols0 := toTriplet_proj A hwf (fun t => t.cols)
    (fun a r c => colPosition A.block_structure a.2.block_id + c) 0 rfl
    (fun t a => writeCellTriplets_cols A.values a.1.block.position
      a.1.block.size (colPosition A.block_structure a.2.block_id)
      (colSize A.block_structure a.2.block_id) a.2.position t)
  have hvals0 := toTriplet_proj A hwf (fun t => t.values)
    (fun a r c => A.values.getD
      (a.2.position + r * colSize A.block_structure a.2.block_id + c) 0) 0
    rfl
    (fun t a => writeCellTriplets_values A.values a.1.block.position
      a.1.block.size (colPosition A.block_structure a.2.block_id)
      (colSize A.block_structure a.2.block_id) a.2.position t)
  refine ⟨?_, ?_, ?_, ?_, ?_, rfl, ?_, ?_, ?_⟩
  · calc A.toTripletSparseMatrix.rows
        = ((cellPairs A.block_structure).foldl
            (fun t a => writeCellTriplets A.values a.1.block.position
              a.1.block.size (colPosition A.block_structure a.2.block_id)
              (colSize A.block_structure a.2.block_id) a.2.position t)
            (tripletInit A)).rows :=
          congrArg (fun t => t.rows) (hpairs (tripletInit A))
      _ = (cellPairs A.block_structure).flatMap (fun a =>
            cellFlat (fun r c => a.1.block.position + r) a.1.block.size
              (colSize A.block_structure a.2.block_id)) := hrows0.1
      _ = tripletRowsSpec A :=
          flatMap_pairs_nested A.block_structure.rows
            (fun row cell => cellFlat (fun r c => row.block.position + r)
              row.block.size (colSize A.block_structure cell.block_id))
  · calc A.toTripletSparseMatrix.cols
        = ((cellPairs A.block_structure).foldl
            (fun t a => writeCellTriplets A.values a.1.block.position
              a.1.block.size (colPosition A.block_structure a.2.block_id)
              (colSize A.block_structure a.2.block_id) a.2.position t)
            (tripletInit A)).cols :=
          congrArg (fun t => t.cols) (hpairs (tripletInit A))
      _ = (cellPairs A.block_structure).flatMap (fun a =>
            cellFlat (fun r c =>
              colPosition A.block_structure a.2.block_id + c)
              a.1.block.size (colSize A.block_structure a.2.block_id)) :=
          hcols0.1
      _ = tripletColsSpec A :=
          flatMap_pairs_nested A.block_structure.rows
            (fun row cell => cellFlat (fun r c =>
              colPosition A.block_structure cell.block_id + c)
              row.block.size (colSize A.block_structure cell.block_id))
  · calc A.toTripletSparseMatrix.values
        = ((cellPairs A.block_structure).foldl
            (fun t a => writeCellTriplets A.values a.1.block.position
              a.1.block.size (colPosition A.block_structure a.2.block_id)
              (colSize A.block_structure a.2.block_id) a.2.position t)
            (tripletInit A)).values :=
          congrArg (fun t => t.values) (hpairs (tripletInit A))
      _ = (cellPairs A.block_structure).flatMap (fun a =>
            cellFlat (fun r c => A.values.getD
              (a.2.position + r * colSize A.block_structure a.2.block_id + c)
              0) a.1.block.size (colSize A.block_structure a.2.block_id)) :=
          hvals0.1
      _ = tripletValuesSpec A :=
          flatMap_pairs_nested A.block_structure.rows
            (fun row cell => cellFlat (fun r c => A.values.getD
              (cell.position + r * colSize A.block_structure cell.block_id
                + c) 0)
              row.block.size (colSize A.block_structure cell.block_id))
  · calc A.toTripletSparseMatrix.num_rows
        = ((cellPairs A.block_structure).foldl
            (fun t a => writeCellTriplets A.values a.1.block.position
              a.1.block.size (colPosition A.block_structure a.2.block_id)
              (colSize A.block_structure a.2.block_id) a.2.position t)
            (tripletInit A)).num_rows :=
          congrArg (fun t => t.num_rows) (hpairs (tripletInit A))
      _ = A.num_rows := by
          refine Eq.trans (foldl_proj (fun t => t.num_rows) _
            (fun n (_ : CompressedRow × Cell) => n) ?_
            (cellPairs A.block_structure) (tripletInit A))
            (foldl_keep _ _)
          intro t a
          exact (writeCellTriplets_counts A.values a.1.block.position
            a.1.block.size (colPosition A.block_structure a.2.block_id)
            (colSize A.block_structure a.2.block_id) a.2.position t).1
  · calc A.toTripletSparseMatrix.num_cols
        = ((cellPairs A.block_structure).foldl
            (fun t a => writeCellTriplets A.values a.1.block.position
              a.1.block.size (colPosition A.block_structure a.2.block_id)
              (colSize A.block_structure a.2.block_id) a.2.position t)
            (tripletInit A)).num_cols :=
          congrArg (fun t => t.num_cols) (hpairs (tripletInit A))
      _ = A.num_cols := by
          refine Eq.trans (foldl_proj (fun t => t.num_cols) _
            (fun n (_ : CompressedRow × Cell) => n) ?_
            (cellPairs A.block_structure) (tripletInit A))
            (foldl_keep _ _)
          intro t a
          exact (writeCellTriplets_counts A.values a.1.block.position
            a.1.block.size (colPosition A.block_structure a.2.block_id)
            (colSize A.block_structure a.2.block_id) a.2.position t).2.1
  · exact (congrArg (fun l => l.length)
      (congrArg (fun t => t.rows) (hpairs (tripletInit A)))).trans hrows0.2
  · exact (congrArg (fun l => l.length)
      (congrArg (fun t => t.cols) (hpairs (tripletInit A)))).trans hcols0.2
  · exact (congrArg (fun l => l.length)
      (congrArg (fun t => t.values) (hpairs (tripletInit A)))).trans
      hvals0.2

/-- C4: for every matrix satisfying the descriptor invariant,
`ToTripletSparseMatrix` produces exactly `num_nonzeros` triples (the three
output arrays have length exactly `num_nonzeros`, and the output's
dimensions and nonzero count are those of the matrix); the triple for the
scalar at row offset `r` and column offset `c` of a cell is
`(row_block_position + r, column_block_position + c, value)`; and the
output sequence is exactly the row-major-within-cell, cell-order,
row-order enumeration of the spec. -/
theorem toTriplet_spec (A : BlockSparseMatrix) (hwf : A.wf) :
    A.toTripletSparseMatrix.rows = tripletRowsSpec A
    ∧ A.toTripletSparseMatrix.cols = tripletColsSpec A
    ∧ A.toTripletSparseMatrix.values = tripletValuesSpec A
    ∧ A.toTripletSparseMatrix.num_rows = A.num_rows
    ∧ A.toTripletSparseMatrix.num_cols = A.num_cols
    ∧ A.toTripletSparseMatrix.num_nonzeros = A.num_nonzeros
    ∧ A.toTripletSparseMatrix.rows.length = A.num_nonzeros
    ∧ A.toTripletSparseMatrix.cols.length = A.num_nonzeros
    ∧ A.toTripletSparseMatrix.values.length = A.num_nonzeros :=
  toTriplet_arrays A hwf

theorem getD_append_left {α : Type _} (l l' : List α) (n : Nat) (d : α)
    (h : n < l.length) : (l ++ l').getD n d = l.getD n d := by
  simp only [List.getD_eq_getElem?_getD, List.getElem?_append_left h]

theorem getD_append_right {α : Type _} (l l' : List α) (n : Nat) (d : α)
    (h : l.length ≤ n) :
    (l ++ l').getD n d = l'.getD (n - l.length) d := by
  simp only [List.getD_eq_getElem?_getD, List.getElem?_append_right h]

theorem cellFlat_succ {α : Type _} (h : Nat → Nat → α) (n cbs : Nat) :
    cellFlat h (n + 1) cbs
      = cellFlat h n cbs ++ (List.range cbs).map (h n) := by
  unfold cellFlat
  rw [List.range_succ, List.flatMap_append]
  simp

theorem range_map_getD {α : Type _} (g : Nat → α) (cbs c : Nat) (d : α)
    (hc : c < cbs) : ((List.range cbs).map g).getD c d = g c := by
  have hlen : c < ((List.range cbs).map g).length := by
    simp [List.length_map, List.length_range]
    exact hc
  rw [List.getD_eq_getElem?_getD, List.getElem?_eq_getElem hlen]
  simp

/-- Existence form: every index below `rbs * cbs` addresses one fixed
`(r, c)` slot of `cellFlat`, uniformly in the entry function. -/
theorem cellFlat_getD_ex (cbs : Nat) :
    ∀ (rbs idx : Nat), idx < rbs * cbs →
    ∃ r c, r < rbs ∧ c < cbs ∧
      ∀ {γ : Type} (h : Nat → Nat → γ) (d : γ),
        (cellFlat h rbs cbs).getD idx d = h r c := by
  intro rbs
  induction rbs with
  | zero => intro idx hidx; simp at hidx
  | succ n ih =>
    intro idx hidx
    by_cases hlt : idx < n * cbs
    · obtain ⟨r, c, hr, hc, hget⟩ := ih idx hlt
      refine ⟨r, c, by omega, hc, ?_⟩
      intro γ h d
      rw [cellFlat_succ, getD_append_left]
      · exact hget h d
      · rw [cellFlat_length]
        exact hlt
    · have hsz : (n + 1) * cbs = n * cbs + cbs := by ring
      have hc : idx - n * cbs < cbs := by omega
      refine ⟨n, idx - n * cbs, Nat.lt_succ_self n, hc, ?_⟩
      intro γ h d
      rw [cellFlat_succ, getD_append_right]
      · rw [cellFlat_length]
        exact range_map_getD (h n) cbs (idx - n * cbs) d hc
      · rw [cellFlat_length]
        omega

/-- Address form: the `(r, c)` slot of `cellFlat` sits at index
`r * cbs + c`, uniformly in the entry function. -/
theorem cellFlat_getD_rc (cbs : Nat) :
    ∀ (rbs r c : Nat), r < rbs → c < cbs →
    ∀ {γ : Type} (h : Nat → Nat → γ) (d : γ),
      (cellFlat h rbs cbs).getD (r * cbs + c) d = h r c := by
  intro rbs
  induction rbs with
  | zero => intro r c hr; omega
  | succ n ih =>
    intro r c hr hc γ h d
    rw [cellFlat_succ]
    by_cases hrn : r < n
    · rw [getD_append_left]
      · exact ih r c hrn hc h d
      · rw [cellFlat_length]
        have h1 : (r + 1) * cbs ≤ n * cbs :=
          Nat.mul_le_mul_right _ (Nat.succ_le_of_lt hrn)
        have h2 : (r + 1) * cbs = r * cbs + cbs := by ring
        omega
    · have hrn2 : r = n := by omega
      subst hrn2
      rw [getD_append_right]
      · rw [cellFlat_length]
        have h3 : r * cbs + c - r * cbs = c := by omega
        rw [h3]
        exact range_map_getD (h r) cbs c d hc
      · rw [cellFlat_length]
        omega

/-- Existence form at the flat level: every index below the total area
addresses one fixed `(cell, r, c)` slot, uniformly in the entry
function. -/
theorem flat_getD_ex (bs : CompressedRowBlockStructure) :
    ∀ (L : List (CompressedRow × Cell)) (idx : Nat),
    idx < (L.map (cellArea bs)).sum →
    ∃ a, a ∈ L ∧ ∃ r c, r < a.1.block.size ∧ c < colSize bs a.2.block_id ∧
      ∀ {γ : Type} (h : (CompressedRow × Cell) → Nat → Nat → γ) (d : γ),
        (L.flatMap (fun b => cellFlat (h b) b.1.block.size
          (colSize bs b.2.block_id))).getD idx d = h a r c := by
  intro L
  induction L with
  | nil => intro idx hidx; simp at hidx
  | cons x t ih =>
    intro idx hidx
    simp only [List.map_cons, List.sum_cons] at hidx
    by_cases hlt : idx < cellArea bs x
    · obtain ⟨r, c, hr, hc, hget⟩ := cellFlat_getD_ex
        (colSize bs x.2.block_id) x.1.block.size idx hlt
      refine ⟨x, List.mem_cons_self x t, r, c, hr, hc, ?_⟩
      intro γ h d
      rw [List.flatMap_cons, getD_append_left]
      · exact hget (h x) d
      · rw [cellFlat_length]
        exact hlt
    · obtain ⟨a, ha, r, c, hr, hc, hget⟩ := ih (idx - cellArea bs x)
        (by omega)
      refine ⟨a, List.mem_cons_of_mem x ha, r, c, hr, hc, ?_⟩
      intro γ h d
      rw [List.flatMap_cons, getD_append_right]
      · rw [cellFlat_length]
        exact hget h d
      · rw [cellFlat_length]
        have harea : cellArea bs x
            = x.1.block.size * colSize bs x.2.block_id := rfl
        omega

/-- Address form at the flat level: every `(cell, r, c)` slot has an index
below the total area, uniformly in the entry function. -/
theorem flat_getD_at (bs : CompressedRowBlockStructure) :
    ∀ (L : List (CompressedRow × Cell)) (a : CompressedRow × Cell),
    a ∈ L → ∀ (r c : Nat), r < a.1.block.size →
    c < colSize bs a.2.block_id →
    ∃ idx, idx < (L.map (cellArea bs)).sum ∧
      ∀ {γ : Type} (h : (CompressedRow × Cell) → Nat → Nat → γ) (d : γ),
        (L.flatMap (fun b => cellFlat (h b) b.1.block.size
          (colSize bs b.2.block_id))).getD idx d = h a r c := by
  intro L
  induction L with
  | nil => intro a ha; simp at ha
  | cons x t ih =>
    intro a ha r c hr hc
    rcases List.mem_cons.mp ha with rfl | hat
    · refine ⟨r * colSize bs a.2.block_id + c, ?_, ?_⟩
      · simp only [List.map_cons, List.sum_cons]
        have h2 : r * colSize bs a.2.block_id + c < cellArea bs a := by
          unfold cellArea
          have h3 : (r + 1) * colSize bs a.2.block_id
              ≤ a.1.block.size * colSize bs a.2.block_id :=
            Nat.mul_le_mul_right _ (Nat.succ_le_of_lt hr)
          have h4 : (r + 1) * colSize bs a.2.block_id
              = r * colSize bs a.2.block_id + colSize bs a.2.block_id := by
            ring
          omega
        omega
      · intro γ h d
        rw [List.flatMap_cons, getD_append_left]
        · exact cellFlat_getD_rc (colSize bs a.2.block_id) a.1.block.size
            r c hr hc (h a) d
        · rw [cellFlat_length]
          have h3 : (r + 1) * colSize bs a.2.block_id
              ≤ a.1.block.size * colSize bs a.2.block_id :=
            Nat.mul_le_mul_right _ (Nat.succ_le_of_lt hr)
          have h4 : (r + 1) * colSize bs a.2.block_id
              = r * colSize bs a.2.block_id + colSize bs a.2.block_id := by
            ring
          omega
    · obtain ⟨idx, hidx, hget⟩ := ih a hat r c hr hc
      refine ⟨cellArea bs x + idx, ?_, ?_⟩
      · simp only [List.map_cons, List.sum_cons]
        omega
      · intro γ h d
        rw [List.flatMap_cons, getD_append_right]
        · rw [cellFlat_length]
          have h3 : cellArea bs x + idx
              - x.1.block.size * colSize bs x.2.block_id = idx := by
            unfold cellArea
            omega
          rw [h3]
          exact hget h d
        · rw [cellFlat_length]
          have : cellArea bs x = x.1.block.size * colSize bs x.2.block_id :=
            rfl
          omega

/-- Witness for C4 at the concrete matrix `A0`. -/
theorem toTriplet_spec_witness :
    A0.wf
    ∧ A0.toTripletSparseMatrix.rows = tripletRowsSpec A0
    ∧ A0.toTripletSparseMatrix.values = tripletValuesSpec A0
    ∧ A0.toTripletSparseMatrix.values.length = A0.num_nonzeros :=
  ⟨by decide, (toTriplet_spec A0 (by decide)).1,
    (toTriplet_spec A0 (by decide)).2.2.1,
    (toTriplet_spec A0 (by decide)).2.2.2.2.2.2.2.2⟩

/-! ### The dense form versus the triplet output -/

theorem toTriplet_rows_flat (A : BlockSparseMatrix) (hwf : A.wf) :
    A.toTripletSparseMatrix.rows
      = (cellPairs A.block_structure).flatMap (fun a =>
          cellFlat (fun r c => a.1.block.position + r) a.1.block.size
            (colSize A.block_structure a.2.block_id)) :=
  ((toTriplet_arrays A hwf).1).trans
    (flatMap_pairs_nested A.block_structure.rows
      (fun row cell => cellFlat (fun r c => row.block.position + r)
        row.block.size (colSize A.block_structure cell.block_id))).symm

theorem toTriplet_cols_flat (A : BlockSparseMatrix) (hwf : A.wf) :
    A.toTripletSparseMatrix.cols
      = (cellPairs A.block_structure).flatMap (fun a =>
          cellFlat (fun r c =>
            colPosition A.block_structure a.2.block_id + c)
            a.1.block.size (colSize A.block_structure a.2.block_id)) :=
  ((toTriplet_arrays A hwf).2.1).trans
    (flatMap_pairs_nested A.block_structure.rows
      (fun row cell => cellFlat (fun r c =>
        colPosition A.block_structure cell.block_id + c)
        row.block.size (colSize A.block_structure cell.block_id))).symm

theorem toTriplet_values_flat (A : BlockSparseMatrix) (hwf : A.wf) :
    A.toTripletSparseMatrix.values
      = (cellPairs A.block_structure).flatMap (fun a =>
          cellFlat (fun r c => A.values.getD
            (a.2.position + r * colSize A.block_structure a.2.block_id + c)
            0) a.1.block.size (colSize A.block_structure a.2.block_id)) :=
  ((toTriplet_arrays A hwf).2.2.1).trans
    (flatMap_pairs_nested A.block_structure.rows
      (fun row cell => cellFlat (fun r c => A.values.getD
        (cell.position + r * colSize A.block_structure cell.block_id + c)
        0) row.block.size (colSize A.block_structure cell.block_id))).symm

theorem sum_map_eq_single {α : Type _} (D : α → ℚ) (C : α → Prop)
    (hD : ∀ x, ¬ C x → D x = 0) :
    ∀ (L : List α) (a : α), a ∈ L → C a →
    List.Pairwise (fun x y => ¬(C x ∧ C y)) L →
    (L.map D).sum = D a := by
  intro L
  induction L with
  | nil => intro a ha; simp at ha
  | cons x t ih =>
    intro a ha hCa hp
    obtain ⟨hxt, htp⟩ := List.pairwise_cons.mp hp
    rcases List.mem_cons.mp ha with rfl | hat
    · simp only [List.map_cons, List.sum_cons]
      have hz : (t.map D).sum = 0 := by
        apply List.sum_eq_zero
        intro q hq
        obtain ⟨b, hb, rfl⟩ := List.mem_map.mp hq
        apply hD
        intro hCb
        exact hxt b hb ⟨hCa, hCb⟩
      rw [hz, add_zero]
    · simp only [List.map_cons, List.sum_cons]
      have hx0 : D x = 0 := by
        apply hD
        intro hCx
        exact hxt a hat ⟨hCx, hCa⟩
      rw [hx0, ih a hat hCa htp, zero_add]

/-- Under the distinct-ids invariant, the dense entry at an index pair
covered by a cell is exactly that cell's contribution. -/
theorem dense_single (A : BlockSparseMatrix) (hwf : A.wfDistinct)
    (a : CompressedRow × Cell) (ha : a ∈ cellPairs A.block_structure)
    (p : Nat × Nat) (hcov : covers A a p) :
    A.toDenseFun p = ddD A a p := by
  rw [toDenseFun_pairs]
  exact sum_map_eq_single (fun b => ddD A b p) (fun b => covers A b p)
    (fun b hb => ddD_eq_zero_of_not_covers A b p hb)
    (cellPairs A.block_structure) a ha hcov
    (List.Pairwise.imp (fun hab hcc => hab p hcc)
      (cellPairs_disjoint A hwf))

/-- C7 (amended): for a matrix satisfying the descriptor invariant with
distinct column-block ids per row (no overlapping cells), the dense export
and the triplet export agree: the dense entry at every triple's
coordinates equals that triple's value, and the dense matrix is zero at
every coordinate pair where no triple lands. -/
theorem triplet_dense_correspondence (A : BlockSparseMatrix)
    (hwf : A.wfDistinct) :
    (∀ idx, idx < A.num_nonzeros →
      A.toDenseMatrix (A.toTripletSparseMatrix.rows.getD idx 0)
        (A.toTripletSparseMatrix.cols.getD idx 0)
        = A.toTripletSparseMatrix.values.getD idx 0)
    ∧ (∀ i j, (∀ idx, idx < A.num_nonzeros →
        ¬(A.toTripletSparseMatrix.rows.getD idx 0 = i
          ∧ A.toTripletSparseMatrix.cols.getD idx 0 = j)) →
        A.toDenseMatrix i j = 0) := by
  have hwf0 := hwf.1
  obtain ⟨hbs, hnc, hnr, hnnz, hlen⟩ := hwf0
  have hwf0 : A.wf := ⟨hbs, hnc, hnr, hnnz, hlen⟩
  have hrowsf := toTriplet_rows_flat A hwf0
  have hcolsf := toTriplet_cols_flat A hwf0
  have hvalsf := toTriplet_values_flat A hwf0
  constructor
  · intro idx hidx
    have hidx2 : idx < ((cellPairs A.block_structure).map
        (cellArea A.block_structure)).sum := by omega
    obtain ⟨a, ha, r, c, hr, hc, hget⟩ :=
      flat_getD_ex A.block_structure (cellPairs A.block_structure) idx hidx2
    have h1 : A.toTripletSparseMatrix.rows.getD idx 0
        = a.1.block.position + r := by
      rw [hrowsf]
      exact hget (fun a r c => a.1.block.position + r) 0
    have h2 : A.toTripletSparseMatrix.cols.getD idx 0
        = colPosition A.block_structure a.2.block_id + c := by
      rw [hcolsf]
      exact hget (fun a r c =>
        colPosition A.block_structure a.2.block_id + c) 0
    have h3 : A.toTripletSparseMatrix.values.getD idx 0
        = A.values.getD
            (a.2.position + r * colSize A.block_structure a.2.block_id + c)
            0 := by
      rw [hvalsf]
      exact hget (fun a r c => A.values.getD
        (a.2.position + r * colSize A.block_structure a.2.block_id + c) 0) 0
    rw [h1, h2, h3]
    have hcov : covers A a (a.1.block.position + r,
        colPosition A.block_structure a.2.block_id + c) :=
      ⟨Nat.le_add_right _ _, by omega, Nat.le_add_right _ _, by omega⟩
    have hds := dense_single A hwf a ha _ hcov
    show A.toDenseFun (a.1.block.position + r,
      colPosition A.block_structure a.2.block_id + c) = _
    rw [hds]
    unfold ddD ddCellDelta
    rw [if_pos]
    · simp [Nat.add_sub_cancel_left]
    · exact hcov
  · intro i j hno
    show A.toDenseFun (i, j) = 0
    rw [toDenseFun_pairs]
    apply List.sum_eq_zero
    intro q hq
    obtain ⟨a, ha, rfl⟩ := List.mem_map.mp hq
    by_cases hcov : covers A a (i, j)
    · exfalso
      obtain ⟨hc1, hc2, hc3, hc4⟩ := hcov
      obtain ⟨idx, hidx, hget⟩ := flat_getD_at A.block_structure
        (cellPairs A.block_structure) a ha (i - a.1.block.position)
        (j - colPosition A.block_structure a.2.block_id)
        (by omega) (by omega)
      have hidx3 : idx < A.num_nonzeros := by omega
      apply hno idx hidx3
      constructor
      · rw [hrowsf]
        have h4 := hget (fun a r c => a.1.block.position + r) 0
        rw [h4]
        omega
      · rw [hcolsf]
        have h4 := hget (fun a r c =>
          colPosition A.block_structure a.2.block_id + c) 0
        rw [h4]
        omega
    · exact ddD_eq_zero_of_not_covers A a (i, j) hcov

/-- The duplicate-cell matrix with value buffer `[1, 2]`. -/
def M7 : BlockSparseMatrix :=
  { BlockSparseMatrix.ofBlockStructure bs5 with values := [1, 2] }

/-- Counterexample for C7 as stated: `M7` satisfies the descriptor
invariant of spec section 3, its triplet output contains the triple
`(0, 0, 1)` (at index `0`), yet the dense form holds `3` at `(0, 0)`, so
the nonzero dense entries do not coincide with the triples. -/
theorem triplet_dense_counterexample :
    M7.wf
    ∧ M7.toTripletSparseMatrix.rows.getD 0 0 = 0
    ∧ M7.toTripletSparseMatrix.cols.getD 0 0 = 0
    ∧ M7.toTripletSparseMatrix.values.getD 0 0 = 1
    ∧ M7.toDenseMatrix 0 0 = 3 := by
  refine ⟨by decide, by decide, by decide, by decide, ?_⟩
  have hb : M7.block_structure = bs5 := rfl
  have hv : M7.values = [1, 2] := rfl
  simp only [BlockSparseMatrix.toDenseMatrix, BlockSparseMatrix.toDenseFun,
    addBlockDense, hb, hv, bs5, colSize, colPosition, List.foldl_cons,
    List.foldl_nil]
  norm_num

/-- Witness for the amended C7 at the concrete matrix `A0`. -/
theorem triplet_dense_correspondence_witness :
    A0.wfDistinct
    ∧ (0 < A0.num_nonzeros
      ∧ A0.toDenseMatrix (A0.toTripletSparseMatrix.rows.getD 0 0)
          (A0.toTripletSparseMatrix.cols.getD 0 0)
          = A0.toTripletSparseMatrix.values.getD 0 0)
    ∧ ((∀ idx, idx < A0.num_nonzeros →
        ¬(A0.toTripletSparseMatrix.rows.getD idx 0 = 5
          ∧ A0.toTripletSparseMatrix.cols.getD idx 0 = 5))
      ∧ A0.toDenseMatrix 5 5 = 0) :=
  ⟨by decide,
   ⟨by decide,
    (triplet_dense_correspondence A0 (by decide)).1 0 (by decide)⟩,
   ⟨by decide,
    (triplet_dense_correspondence A0 (by decide)).2 5 5 (by decide)⟩⟩

end CeresBSM
